import Mathlib

/-!
Verification of `versiondispatch` (src/src.py): a shallow embedding of the
vendored PEP 440 version parser/comparator and of the dispatch registry,
with theorems settling the frozen claims C1..C10.

Strings from the Python side are modelled as `List Char` (named `Str`),
which keeps every definition executable and kernel-reducible.
-/

/-- Python strings are modelled as lists of characters. -/
abbrev Str := List Char

/-- ASCII decimal digit test, the `[0-9]` character class of the regex. -/
def isDig (c : Char) : Bool := 48 ≤ c.toNat && c.toNat ≤ 57

/-- Lowercase ASCII letter test. -/
def isLowerAlpha (c : Char) : Bool := 97 ≤ c.toNat && c.toNat ≤ 122

/-- The `[a-z0-9]` character class used by the local-segment grammar
(inputs are lowercased before parsing, see `Version`). -/
def isAlnum (c : Char) : Bool := isDig c || isLowerAlpha c

/-- The separator class `[-_.]` used between version segments. -/
def isSepB (c : Char) : Bool := c == '-' || c == '_' || c == '.'

/-- Whitespace as matched by the `\s*` anchors of the version regex
(ASCII part of Python's `\s`). -/
def isWsB (c : Char) : Bool :=
  c == ' ' || c == '\t' || c == '\n' || c == '\r' || c == '\x0b' || c == '\x0c'

/-- Python `str.lower` restricted to ASCII (the regex only gives case
significance to ASCII letters). -/
def pyLower (c : Char) : Char :=
  if 65 ≤ c.toNat ∧ c.toNat ≤ 90 then Char.ofNat (c.toNat + 32) else c

/-- Python `str.strip()`: drop whitespace from both ends. -/
def pyStrip (cs : Str) : Str :=
  ((cs.dropWhile isWsB).reverse.dropWhile isWsB).reverse

/-!
## Comparison keys (`_cmpkey`, `CmpKey`, the `Infinity` sentinels)

Python compares `_key` tuples lexicographically; the `InfinityType` /
`NegativeInfinityType` sentinels compare above / below everything else.
We embed each tuple slot as an inductive with a total comparator; the
six relational operators of `_BaseVersion` are the induced relations.
-/

/-- Three-way comparison on `Nat` (Python `int` comparison). -/
def natCmp (a b : Nat) : Ordering :=
  if a < b then .lt else if b < a then .gt else .eq

/-- Three-way comparison on `Char` (Python compares strings by code point). -/
def charCmp (a b : Char) : Ordering := natCmp a.toNat b.toNat

/-- Lexicographic comparison of lists with shorter-is-smaller tie-break:
Python tuple / sequence comparison. -/
def listCmp (c : α → α → Ordering) : List α → List α → Ordering
  | [], [] => .eq
  | [], _ :: _ => .lt
  | _ :: _, [] => .gt
  | a :: as, b :: bs =>
    match c a b with
    | .eq => listCmp c as bs
    | o => o

/-- Python string comparison. -/
def strCmp (a b : Str) : Ordering := listCmp charCmp a b

/-- The value of a pre/post/dev slot of `_key`: `NegativeInfinity`, a
`(tag, number)` pair, or `Infinity`. -/
inductive PPD where
  | ninf
  | val (tag : Str) (n : Nat)
  | inf
deriving DecidableEq

/-- Comparison of pre/post/dev slots: `ninf` below everything, `inf` above
everything, pairs lexicographically (tag string first, then number) — the
Python comparison of the sentinel objects and tuples. -/
def ppdCmp : PPD → PPD → Ordering
  | .ninf, .ninf => .eq
  | .ninf, _ => .lt
  | _, .ninf => .gt
  | .inf, .inf => .eq
  | .inf, _ => .gt
  | _, .inf => .lt
  | .val t n, .val t' n' =>
    match strCmp t t' with
    | .eq => natCmp n n'
    | o => o

/-- One local-version segment as it appears inside `_key`:
`(i, "")` for an integer segment, `(NegativeInfinity, s)` for a string
segment (see the `_local` construction in `_cmpkey`). -/
inductive LocEntry where
  | num (n : Nat)
  | str (s : Str)
deriving DecidableEq

/-- Comparison of local segments: `(n, "")` vs `(NegativeInfinity, s)` makes
every string segment sort before every numeric segment; same-kind segments
compare numerically / lexicographically. -/
def locEntryCmp : LocEntry → LocEntry → Ordering
  | .num m, .num n => natCmp m n
  | .num _, .str _ => .gt
  | .str _, .num _ => .lt
  | .str s, .str t => strCmp s t

/-- The local slot of `_key`: `NegativeInfinity` when the version has no
local segment, otherwise the tuple of per-segment pairs. -/
inductive LocalRank where
  | ninf
  | segs (l : List LocEntry)
deriving DecidableEq

/-- Comparison of local slots. -/
def localCmp : LocalRank → LocalRank → Ordering
  | .ninf, .ninf => .eq
  | .ninf, .segs _ => .lt
  | .segs _, .ninf => .gt
  | .segs a, .segs b => listCmp locEntryCmp a b

/-- The 6-tuple `CmpKey` returned by `_cmpkey`. -/
structure CmpKey where
  epoch : Nat
  release : List Nat
  pre : PPD
  post : PPD
  dev : PPD
  locRank : LocalRank
deriving DecidableEq

/-- Lexicographic comparison of `_key` tuples (Python tuple comparison). -/
def keyCmp (a b : CmpKey) : Ordering :=
  (natCmp a.epoch b.epoch).then
    ((listCmp natCmp a.release b.release).then
      ((ppdCmp a.pre b.pre).then
        ((ppdCmp a.post b.post).then
          ((ppdCmp a.dev b.dev).then (localCmp a.locRank b.locRank)))))

/-!
## Parsed versions (`_Version` namedtuple) and `_cmpkey`
-/

/-- The `_Version` namedtuple stored by `Version.__init__`: the parsed-out
pieces of a version string.  `locSegs` is the field called `local` in the
source (`local` is a Lean keyword); a segment is an `int` or a lowercase
string, as produced by `_parse_local_version`. -/
structure PyVersion where
  epoch : Nat
  release : List Nat
  pre : Option (Str × Nat)
  post : Option (Str × Nat)
  dev : Option (Str × Nat)
  locSegs : Option (List (Sum Nat Str))
deriving DecidableEq

/-- The function `_cmpkey(epoch, release, pre, post, dev, local)` from the source:
strips trailing zeros from the release, encodes absent pre/post/dev/local
segments with the infinity sentinels, and pairs up local segments. -/
def _cmpkey (epoch : Nat) (release : List Nat) (pre post dev : Option (Str × Nat))
    (locSegs : Option (List (Sum Nat Str))) : CmpKey :=
  -- reversed-dropwhile-zero-reversed, as in the source
  let _release := ((release.reverse).dropWhile (· == 0)).reverse
  -- the dev-only trick: no pre, no post, but dev present → NegativeInfinity;
  -- otherwise no pre → Infinity; otherwise the (tag, number) pair
  let _pre : PPD :=
    match pre, post, dev with
    | none, none, some _ => .ninf
    | none, _, _ => .inf
    | some (t, n), _, _ => .val t n
  let _post : PPD :=
    match post with
    | none => .ninf
    | some (t, n) => .val t n
  let _dev : PPD :=
    match dev with
    | none => .inf
    | some (t, n) => .val t n
  let _local : LocalRank :=
    match locSegs with
    | none => .ninf
    | some l => .segs (l.map fun seg =>
        match seg with
        | .inl i => .num i
        | .inr s => .str s)
  ⟨epoch, _release, _pre, _post, _dev, _local⟩

/-- The key `Version._key`, generated at construction time from the parsed pieces. -/
def vKey (v : PyVersion) : CmpKey :=
  _cmpkey v.epoch v.release v.pre v.post v.dev v.locSegs

/-- Embeds `_BaseVersion.__lt__`: `self._key < other._key`. -/
def vlt (a b : PyVersion) : Bool := keyCmp (vKey a) (vKey b) == .lt

/-- Embeds `_BaseVersion.__le__`: `self._key <= other._key`. -/
def vle (a b : PyVersion) : Bool := keyCmp (vKey a) (vKey b) != .gt

/-- Embeds `_BaseVersion.__eq__`: `self._key == other._key`. -/
def veq (a b : PyVersion) : Bool := keyCmp (vKey a) (vKey b) == .eq

/-- Embeds `_BaseVersion.__ge__`: `self._key >= other._key`. -/
def vge (a b : PyVersion) : Bool := keyCmp (vKey a) (vKey b) != .lt

/-- Embeds `_BaseVersion.__gt__`: `self._key > other._key`. -/
def vgt (a b : PyVersion) : Bool := keyCmp (vKey a) (vKey b) == .gt

/-- Embeds `_BaseVersion.__ne__`: `self._key != other._key`. -/
def vne (a b : PyVersion) : Bool := keyCmp (vKey a) (vKey b) != .eq

/-!
## The version parser (`VERSION_PATTERN` + `Version.__init__`)

The anchored regex `^\s* VERSION_PATTERN \s*$` (VERBOSE, IGNORECASE) is
embedded as a deterministic recursive-descent parser over `Str`.  The
input is whitespace-stripped and ASCII-lowercased up front: the pattern
only contains ASCII classes, and every captured letter group is lowercased
by `_parse_letter_version` / `_parse_local_version` anyway, so this is
equivalent to IGNORECASE matching.  At each point where the regex could
backtrack, the alternatives either cannot overlap or provably lead to the
same overall result, so the descent commits; tag alternations are tried
longest-first, which coincides with the regex's leftmost-alternative rule
because a shorter tag that is a prefix of a longer one leaves a residue
(`lpha`, `view`, ...) that no later grammar element can consume.
-/

/-- Greedily take a run of decimal digits (`[0-9]+`, possibly empty). -/
def takeDigits : Str → Str × Str
  | [] => ([], [])
  | c :: cs =>
    if isDig c then
      let (d, r) := takeDigits cs
      (c :: d, r)
    else ([], c :: cs)

/-- Greedily take a run of `[a-z0-9]` characters. -/
def takeAlnum : Str → Str × Str
  | [] => ([], [])
  | c :: cs =>
    if isAlnum c then
      let (d, r) := takeAlnum cs
      (c :: d, r)
    else ([], c :: cs)

/-- Numeric value of a digit run (Python `int(...)`). -/
def digitsToNat (ds : Str) : Nat :=
  ds.foldl (fun acc c => 10 * acc + (c.toNat - 48)) 0

/-- If `tag` is a literal head of `cs`, the remainder. -/
def stripTag : Str → Str → Option Str
  | [], cs => some cs
  | _ :: _, [] => none
  | t :: ts, c :: cs => if c = t then stripTag ts cs else none

/-- Try a list of literal tags in order, returning the first that matches
together with the rest of the input. -/
def matchFirstTag (tags : List Str) (cs : Str) : Option (Str × Str) :=
  match tags with
  | [] => none
  | t :: ts =>
    match stripTag t cs with
    | some rest => some (t, rest)
    | none => matchFirstTag ts cs

/-- Tag-spelling normalization from `_parse_letter_version`. -/
def normalizeTag (t : Str) : Str :=
  if t = "alpha".data then "a".data
  else if t = "beta".data then "b".data
  else if t = "c".data ∨ t = "pre".data ∨ t = "preview".data then "rc".data
  else if t = "rev".data ∨ t = "r".data then "post".data
  else t

/-- The pre-release tag alternation `(a|b|c|rc|alpha|beta|pre|preview)`,
longest-first (equivalent to the regex's order, see module comment). -/
def preTags : List Str :=
  ["preview".data, "alpha".data, "beta".data, "pre".data,
   "rc".data, "a".data, "b".data, "c".data]

/-- The post-release tag alternation `(post|rev|r)`, longest-first. -/
def postTags : List Str := ["post".data, "rev".data, "r".data]

/-- The dev-release tag. -/
def devTags : List Str := ["dev".data]

/-- The class `[-_\.]?` — one optional separator. -/
def consumeOptSep (cs : Str) : Str :=
  match cs with
  | c :: rest => if isSepB c then rest else cs
  | [] => []

/-- The part `[-_\.]? ([0-9]+)?` after a letter tag: the optional separator and the
optional number, with the implicit 0 of `_parse_letter_version` when no
number is present. -/
def consumeOptSepDigits (cs : Str) : Nat × Str :=
  let cs₁ := consumeOptSep cs
  match takeDigits cs₁ with
  | (d :: ds, rest) => (digitsToNat (d :: ds), rest)
  | ([], _) => (0, cs₁)

/-- The optional epoch `([0-9]+)!`; when absent the epoch defaults to 0 and
no input is consumed. -/
def parseEpoch (cs : Str) : Nat × Str :=
  match takeDigits cs with
  | (d :: ds, '!' :: rest) => (digitsToNat (d :: ds), rest)
  | _ => (0, cs)

/-- The `(\.[0-9]+)*` tail of the release segment; consumes a dot only when
digits follow.  Structural recursion over a fuel bound on the input length
(each step consumes at least two characters). -/
def parseDotNatsF : Nat → Str → List Nat × Str
  | 0, cs => ([], cs)
  | fuel + 1, cs =>
    match cs with
    | '.' :: rest =>
      (match takeDigits rest with
       | (d :: ds, rest') =>
         let (ns, r) := parseDotNatsF fuel rest'
         (digitsToNat (d :: ds) :: ns, r)
       | ([], _) => ([], cs))
    | _ => ([], cs)

/-- The release segment `[0-9]+(\.[0-9]+)*`. -/
def parseRelease (cs : Str) : Option (List Nat × Str) :=
  match takeDigits cs with
  | ([], _) => none
  | (d :: ds, rest) =>
    let (ns, r) := parseDotNatsF rest.length rest
    some (digitsToNat (d :: ds) :: ns, r)

/-- The optional pre-release group
`([-_\.]? (a|b|c|rc|alpha|beta|pre|preview) [-_\.]? ([0-9]+)?)?`,
normalized by `_parse_letter_version`. -/
def parsePre (cs : Str) : Option (Str × Nat) × Str :=
  match matchFirstTag preTags (consumeOptSep cs) with
  | some (t, rest) =>
    let (n, rest') := consumeOptSepDigits rest
    (some (normalizeTag t, n), rest')
  | none => (none, cs)

/-- The optional post-release group: either the implicit `-([0-9]+)` form
(letter `None`, which `_parse_letter_version` turns into tag `post`), or
`[-_\.]? (post|rev|r) [-_\.]? ([0-9]+)?`. -/
def parsePost (cs : Str) : Option (Str × Nat) × Str :=
  let alt2 : Option (Str × Nat) × Str :=
    match matchFirstTag postTags (consumeOptSep cs) with
    | some (t, rest) =>
      let (n, rest') := consumeOptSepDigits rest
      (some (normalizeTag t, n), rest')
    | none => (none, cs)
  match cs with
  | '-' :: rest =>
    (match takeDigits rest with
     | (d :: ds, rest') => (some ("post".data, digitsToNat (d :: ds)), rest')
     | ([], _) => alt2)
  | _ => alt2

/-- The optional dev-release group `([-_\.]? dev [-_\.]? ([0-9]+)?)?`. -/
def parseDev (cs : Str) : Option (Str × Nat) × Str :=
  match matchFirstTag devTags (consumeOptSep cs) with
  | some (t, rest) =>
    let (n, rest') := consumeOptSepDigits rest
    (some (normalizeTag t, n), rest')
  | none => (none, cs)

/-- One local segment, as stored by `_parse_local_version`: an `int` when the
characters are all digits, otherwise the (already lowercased) string. -/
def mkSeg (s : Str) : Sum Nat Str :=
  if s.all isDig then .inl (digitsToNat s) else .inr s

/-- The `([-_\.][a-z0-9]+)*` tail of the local version; consumes a separator
only when alphanumerics follow. -/
def parseLocTailF : Nat → Str → List (Sum Nat Str) × Str
  | 0, cs => ([], cs)
  | fuel + 1, cs =>
    match cs with
    | c :: rest =>
      if isSepB c then
        (match takeAlnum rest with
         | (a :: as, rest') =>
           let (segs, r) := parseLocTailF fuel rest'
           (mkSeg (a :: as) :: segs, r)
         | ([], _) => ([], cs))
      else ([], cs)
    | [] => ([], [])

/-- The optional local version `(\+[a-z0-9]+([-_\.][a-z0-9]+)*)?`.  A `+`
not followed by an alphanumeric run can be consumed by nothing else, so the
anchored match fails. -/
def parseLocal (cs : Str) : Option (Option (List (Sum Nat Str)) × Str) :=
  match cs with
  | '+' :: rest =>
    (match takeAlnum rest with
     | (a :: as, rest') =>
       let (segs, r) := parseLocTailF rest'.length rest'
       some (some (mkSeg (a :: as) :: segs), r)
     | ([], _) => none)
  | _ => some (none, cs)

/-- The optional leading `v?` (input already lowercased); a leading `v`
can never start the release segment, so consuming it commits. -/
def stripLeadingV (cs : Str) : Str :=
  match cs with
  | 'v' :: rest => rest
  | _ => cs

/-- The full anchored pattern on a stripped, lowercased input: `v?`, epoch,
release, pre, post, dev, local, end of input. -/
def parseAll (cs : Str) : Option PyVersion :=
  let cs := stripLeadingV cs
  let (epoch, cs) := parseEpoch cs
  match parseRelease cs with
  | none => none
  | some (release, cs) =>
    let (pre, cs) := parsePre cs
    let (post, cs) := parsePost cs
    let (dev, cs) := parseDev cs
    match parseLocal cs with
    | none => none
    | some (locSegs, cs) =>
      if cs = [] then some ⟨epoch, release, pre, post, dev, locSegs⟩ else none

/-- Embeds `Version.__init__`: parse the string or fail (`InvalidVersion` becomes
`none`).  Whitespace stripping and lowercasing stand in for the `\s*`
anchors and the IGNORECASE flag (see the module comment above). -/
def Version (s : Str) : Option PyVersion :=
  parseAll ((pyStrip s).map pyLower)

/-- The module-level `parse` function; `LegacyVersion` is not implemented,
so an unparseable string is a failure just as for `Version`. -/
def parseVer (s : Str) : Option PyVersion := Version s

/-- Embeds `_is_valid_version`: `True` iff `Version(version)` does not raise. -/
def _is_valid_version (s : Str) : Bool := (Version s).isSome

/-!
## Canonical rendering (`Version.__str__`)
-/

/-- Decimal rendering of a natural number (Python `str(int)`), via the
digit-count as structural fuel. -/
def natToDigitsAux : Nat → Nat → Str
  | 0, _ => []
  | fuel + 1, n =>
    if n < 10 then [Char.ofNat (48 + n)]
    else natToDigitsAux fuel (n / 10) ++ [Char.ofNat (48 + n % 10)]

/-- Decimal rendering of a natural number. -/
def natToDigits (n : Nat) : Str := natToDigitsAux (n + 1) n

/-- Python `".".join`. -/
def joinDots : List Str → Str
  | [] => []
  | [s] => s
  | s :: ss => s ++ '.' :: joinDots ss

/-- Renders one stored local segment with `str`. -/
def segStr : Sum Nat Str → Str
  | .inl n => natToDigits n
  | .inr s => s

/-- The epoch part of `__str__`: `f"{epoch}!"` when nonzero. -/
def epochStr (e : Nat) : Str :=
  if e ≠ 0 then natToDigits e ++ ['!'] else []

/-- The release part of `__str__`: `".".join(str(x) for x in release)`. -/
def releaseStr (rel : List Nat) : Str := joinDots (rel.map natToDigits)

/-- The pre part of `__str__`: `"".join(str(x) for x in pre)`. -/
def preStr : Option (Str × Nat) → Str
  | some (t, n) => t ++ natToDigits n
  | none => []

/-- The post part of `__str__`: `f".post{number}"` (the `post` property
exposes only the number). -/
def postStr : Option (Str × Nat) → Str
  | some (_, n) => '.' :: 'p' :: 'o' :: 's' :: 't' :: natToDigits n
  | none => []

/-- The dev part of `__str__`: `f".dev{number}"`. -/
def devStr : Option (Str × Nat) → Str
  | some (_, n) => '.' :: 'd' :: 'e' :: 'v' :: natToDigits n
  | none => []

/-- The local part of `__str__`: `f"+{local}"` where the `local` property
dot-joins the segments; a falsy (absent or empty) local renders nothing. -/
def locStr : Option (List (Sum Nat Str)) → Str
  | some (s :: ss) => '+' :: joinDots ((s :: ss).map segStr)
  | _ => []

/-- Embeds `Version.__str__`: the canonical rendering, a pure function of the
parsed pieces. -/
def verToString (v : PyVersion) : Str :=
  epochStr v.epoch ++ releaseStr v.release ++ preStr v.pre
    ++ postStr v.post ++ devStr v.dev ++ locStr v.locSegs

/-!
## The dispatch machinery (`versiondispatch`, `pretend_version`)

Implementations are identified by `Nat` tokens; the mutable
`_is_versiondispatched` attribute that `_register`'s `outer` sets on
function objects is modelled by the `flagged` set carried in the registry
state (every function is attribute-assignable; the source silently skips
the assignment for immutable builtins).  Failures (`ValueError`s and
exceptions escaping from `get_version`) are `Except` errors carrying the
registry state as it stands when the exception propagates.
-/

/-- The real environment: `importlib.metadata.version` (`none` =
`PackageNotFoundError`) and `sys.version_info[:3]` already dot-joined. -/
structure World where
  installed : Str → Option Str
  pythonVersion : Str

/-- A version-resolution function, the type of the module-global
`get_version`; `none` models an escaping exception. -/
def Resolver : Type := Str → Option PyVersion

/-- Python `str.lower` on a whole string. -/
def pyLowerStr (s : Str) : Str := s.map pyLower

/-- The original module-level `get_version`: `"python"` (case-insensitive)
resolves to the interpreter version, anything else through
`importlib.metadata.version`, and the result is parsed with `Version`. -/
def get_version (w : World) : Resolver := fun package =>
  if pyLowerStr package = "python".data then Version w.pythonVersion
  else
    match w.installed package with
    | some vs => Version vs
    | none => none

/-- First-match lookup in an association list (Python `dict.get`). -/
def lookupStr : List (Str × Str) → Str → Option Str
  | [], _ => none
  | (k, v) :: rest, p => if k = p then some v else lookupStr rest p

/-- The substitute `get_version` installed by `pretend_version`: look in
`version_dict` first, fall back to `importlib.metadata.version` (no
special case for `"python"`), and parse with `Version`. -/
def pretendResolver (w : World) (dict : List (Str × Str)) : Resolver := fun package =>
  match lookupStr dict package with
  | some vs => Version vs
  | none =>
    match w.installed package with
    | some vs => Version vs
    | none => none

/-- Outcome of the code run inside a `with pretend_version(...)` scope. -/
inductive BodyOutcome (α : Type) where
  | ok (a : α)
  | raised

/-- The `pretend_version` context manager: set the module-global
`get_version` to the substitute, run the body, and — because the
generator has no `try/finally` — execute the restoring assignment only
when the body finishes normally; when the body raises, the exception is
thrown into the generator at the `yield` and the restore line never runs.
Returns the module-global resolver in effect after the scope exits,
together with the body's outcome. -/
def pretendVersionRun {α : Type} (w : World) (g₀ : Resolver)
    (dict : List (Str × Str)) (body : Resolver → BodyOutcome α) :
    Resolver × BodyOutcome α :=
  let g₁ := pretendResolver w dict
  match body g₁ with
  | .ok a => (g₀, .ok a)
  | .raised => (g₁, .raised)

/-- Embeds `_is_valid_package`: `"python"` is always valid, otherwise
`importlib.metadata.version` must succeed.  Note: this always consults the
real environment, not the (possibly overridden) `get_version`. -/
def _is_valid_package (w : World) (package : Str) : Bool :=
  pyLowerStr package = "python".data || (w.installed package).isSome

/-- The five comparison operators of `_OP_TABLE`. -/
inductive BinOp where
  | eq | ge | le | gt | lt
deriving DecidableEq

/-- Apply an operator as `_OP_TABLE` maps it to the `Version` dunders. -/
def applyOp : BinOp → PyVersion → PyVersion → Bool
  | .eq, a, b => veq a b
  | .ge, a, b => vge a b
  | .le, a, b => vle a b
  | .gt, a, b => vgt a b
  | .lt, a, b => vlt a b

/-- Scan the predicate text for occurrences of the `_OP_PAT` alternation
`==|>=|<=|>|<` (leftmost, longer tokens first, non-overlapping), returning
the parts between matches and the matched operators — `re.split` plus the
ops in order (`re.search` yields the head). -/
def splitOps : Str → List Str × List BinOp
  | [] => ([[]], [])
  | '=' :: '=' :: rest =>
    let (ps, os) := splitOps rest
    ([] :: ps, .eq :: os)
  | '>' :: '=' :: rest =>
    let (ps, os) := splitOps rest
    ([] :: ps, .ge :: os)
  | '<' :: '=' :: rest =>
    let (ps, os) := splitOps rest
    ([] :: ps, .le :: os)
  | '>' :: rest =>
    let (ps, os) := splitOps rest
    ([] :: ps, .gt :: os)
  | '<' :: rest =>
    let (ps, os) := splitOps rest
    ([] :: ps, .lt :: os)
  | c :: rest =>
    match splitOps rest with
    | (p :: ps, os) => ((c :: p) :: ps, os)
    | ([], os) => ([[c]], os)

/-- The failures a `register` call can raise. -/
inductive RegError where
  /-- From `_split_package_version`: no operator token found
  (`"Version not correctly specified, should be like 'foo<=1.2.3'"`). -/
  | noOperator
  /-- the 2-tuple unpacking of `_OP_PAT.split` failed (more than one
  operator occurrence in one clause). -/
  | unpackMismatch
  /-- From `_register`: `"uses incorrect version spec or package is not
  installed"`. -/
  | invalidSpec
  /-- From `outer`: `"You are nesting versiondispatch"`. -/
  | nesting
  /-- an exception escaped from `get_version`/`parse` while evaluating
  `_matches_all_versions`. -/
  | resolveFailure
deriving DecidableEq

/-- Embeds `_split_package_version`: find the operator, split on it, strip both
sides. -/
def _split_package_version (s : Str) : Except RegError (Str × Str × BinOp) :=
  match splitOps s with
  | (_, []) => .error .noOperator
  | ([p, v], op :: _) => .ok (pyStrip p, pyStrip v, op)
  | (_, _ :: _) => .error .unpackMismatch

/-- Embeds `_matches_version`: resolve the package, parse the target, apply the
operator; `none` models an escaping exception. -/
def _matches_version (gv : Resolver) (package version : Str) (op : BinOp) :
    Option Bool :=
  match gv package, parseVer version with
  | some v0, some v1 => some (applyOp op v0 v1)
  | _, _ => none

/-- Embeds `_matches_all_versions`: `all(...)` over the clauses, short-circuiting
on the first `False`. -/
def _matches_all_versions (gv : Resolver) :
    List (Str × Str × BinOp) → Option Bool
  | [] => some true
  | (p, v, op) :: rest =>
    match _matches_version gv p v op with
    | none => none
    | some false => some false
    | some true => _matches_all_versions gv rest

/-- The mutable state of one `versiondispatch` object, plus the
`_is_versiondispatched` flags living on the function objects. -/
structure Registry where
  /-- Field `self._func`: the default implementation. -/
  func : Nat
  /-- Field `self._impl`: the active implementation. -/
  impl : Nat
  /-- Field `self._matched_version`. -/
  matchedVersion : Str
  /-- Field `self._registered_funcs`: the registration log. -/
  registeredFuncs : List (Str × Nat)
  /-- the function objects whose `_is_versiondispatched` attribute is
  `True`. -/
  flagged : List Nat
deriving DecidableEq

/-- Embeds `versiondispatch.__init__`. -/
def mkDispatch (f : Nat) : Registry := ⟨f, f, [], [], []⟩

/-- Embeds `versiondispatch.__call__`: invoke the active implementation. -/
def call (st : Registry) : Nat := st.impl

/-- Computes `package_versions.replace(";", ",").split(",")` with each part
stripped. -/
def splitComma : Str → List Str
  | [] => [[]]
  | ',' :: rest => [] :: splitComma rest
  | c :: rest =>
    match splitComma rest with
    | p :: ps => (c :: p) :: ps
    | [] => [[c]]

/-- The clause list built at the top of `register`. -/
def splitClauses (s : Str) : List Str :=
  (splitComma (s.map fun c => if c = ';' then ',' else c)).map pyStrip

/-- Computes `",".join(package_version_list)`, the text stored in the log. -/
def joinCommas : List Str → Str
  | [] => []
  | [s] => s
  | s :: ss => s ++ ',' :: joinCommas ss

/-- The validation loop of `_register`: split each clause and check
`_is_valid_package`/`_is_valid_version`, accumulating the parsed triples;
the first failure aborts. -/
def validateClauses (w : World) : List Str → Except RegError (List (Str × Str × BinOp))
  | [] => .ok []
  | pv :: rest =>
    match _split_package_version pv with
    | .error e => .error e
    | .ok (package, version, op) =>
      if _is_valid_package w package && _is_valid_version version then
        match validateClauses w rest with
        | .error e => .error e
        | .ok pvs => .ok ((package, version, op) :: pvs)
      else .error .invalidSpec

/-- The `version` loop variable left over after the validation loop: the
version text of the last clause (used for `self._matched_version`). -/
def lastVersionOf (pvs : List (Str × Str × BinOp)) : Str :=
  match pvs.getLast? with
  | some (_, v, _) => v
  | none => []

/-- One full `register(package_versions)(func)` step: validate the clauses
(`_register`), then run `outer(func)` — nesting check, flag the current
`_impl`, append to the log, evaluate the predicate set and move the active
pointer on a match.  Errors carry the registry state left behind by the
raised exception; `ok` carries the new state and the returned `self._impl`. -/
def register (w : World) (gv : Resolver) (st : Registry) (text : Str)
    (fn : Nat) : Except (RegError × Registry) (Registry × Nat) :=
  match validateClauses w (splitClauses text) with
  | .error e => .error (e, st)
  | .ok pvs =>
    if st.flagged.contains fn then .error (.nesting, st)
    else
      let st₁ := { st with flagged := st.impl :: st.flagged }
      let st₂ := { st₁ with
        registeredFuncs := st₁.registeredFuncs
          ++ [(joinCommas (splitClauses text), fn)] }
      match _matches_all_versions gv pvs with
      | none => .error (.resolveFailure, st₂)
      | some true =>
        let st₃ := { st₂ with impl := fn, matchedVersion := lastVersionOf pvs }
        .ok (st₃, st₃.impl)
      | some false => .ok (st₂, st₂.impl)

/-- A sequence of `register` calls, stopping at the first failure. -/
def registerMany (w : World) (gv : Resolver) (st : Registry) :
    List (Str × Nat) → Except (RegError × Registry) Registry
  | [] => .ok st
  | (t, f) :: rest =>
    match register w gv st t f with
    | .error e => .error e
    | .ok (st', _) => registerMany w gv st' rest

/-- Embeds `versiondispatch.reset`: clear the active pointer and the log, then
replay every logged registration through `register` (the function-object
flags are attributes of the functions and survive). -/
def reset (w : World) (gv : Resolver) (st : Registry) :
    Except (RegError × Registry) Registry :=
  let st₁ := { st with impl := st.func, matchedVersion := [], registeredFuncs := [] }
  registerMany w gv st₁ st.registeredFuncs

/-- Whether a predicate-set text validates and matches under resolver `gv`
(the condition under which a `register` call moves the active pointer). -/
def textMatches (w : World) (gv : Resolver) (t : Str) : Bool :=
  match validateClauses w (splitClauses t) with
  | .ok pvs => _matches_all_versions gv pvs == some true
  | .error _ => false

/-- The specification of the active implementation after a registration
log: the most recently registered matching entry wins, the default when
none matched. -/
def specActive (w : World) (gv : Resolver) (d : Nat) (L : List (Str × Nat)) : Nat :=
  L.foldl (fun acc tf => if textMatches w gv tf.1 then tf.2 else acc) d

/-- The `OperatorError` of the spec's error taxonomy. -/
inductive PseudoOpError where
  | operatorError
deriving DecidableEq

/-- Modelled from the spec: the operator restriction for non-numeric
pseudo-version subjects.  The repository variant that implements it (its
tests are `TestCheckOS` in `src/test.py`, expecting
`"string comparison only possible with =="`) is not present under `src/`;
per the spec, when a predicate's subject resolves to a value that is not a
parseable version, only `==` is permitted and any ordering operator fails
with `OperatorError` at predicate-registration time. -/
def pseudoVersionOperatorCheck (resolvedValue : Str) (op : BinOp) :
    Except PseudoOpError Unit :=
  if _is_valid_version resolvedValue then .ok ()
  else if op = .eq then .ok ()
  else .error .operatorError

/-!
## Auxiliary notions for the roundtrip proof
-/

/-- Whether a string starts with a digit. -/
def headDig : Str → Bool
  | [] => false
  | c :: _ => isDig c

/-- Whether a string starts with an alphanumeric. -/
def headAln : Str → Bool
  | [] => false
  | c :: _ => isAlnum c

/-- The tail of a dot-join: `".".join` of a list is its head followed by
`dotTail` of the rest. -/
def dotTail (l : List Str) : Str := (l.map (fun s => '.' :: s)).flatten

/-- Characters occurring in canonical renderings: digits, lowercase
letters, `.`, `!`, `+`.  Such characters are untouched by stripping and
lowercasing. -/
def canonChar (c : Char) : Bool :=
  isDig c || isLowerAlpha c || c == '.' || c == '!' || c == '+'

/-- Well-formedness of one stored local segment: a string segment is
nonempty, alphanumeric-lowercase, and not purely numeric (else
`_parse_local_version` would have stored an `int`). -/
def WfSeg : Sum Nat Str → Prop
  | .inl _ => True
  | .inr s => s ≠ [] ∧ (∀ c ∈ s, isAlnum c = true) ∧ ¬ s.all isDig = true

/-- The invariant of every `_Version` produced by the parser: at least one
release component, normalized tag spellings, well-formed local segments. -/
structure Wf (v : PyVersion) : Prop where
  relNonempty : v.release ≠ []
  preTag : ∀ t n, v.pre = some (t, n) →
    t = "a".data ∨ t = "b".data ∨ t = "rc".data
  postTag : ∀ t n, v.post = some (t, n) → t = "post".data
  devTag : ∀ t n, v.dev = some (t, n) → t = "dev".data
  locWf : ∀ l, v.locSegs = some l → l ≠ [] ∧ ∀ s ∈ l, WfSeg s

/-!
# Theorems

## Lawfulness of the comparators

Each comparator reflects equality (`= .eq` iff the values are equal) and
is antisymmetric under `Ordering.swap`; together these give the strict
total order of claim C1.
-/

theorem natCmp_eq_iff (a b : Nat) : natCmp a b = .eq ↔ a = b := by
  unfold natCmp
  by_cases h1 : a < b
  · simp [h1]; omega
  · by_cases h2 : b < a
    · simp [h1, h2]; omega
    · simp [h1, h2]; omega

theorem natCmp_swap (a b : Nat) : (natCmp a b).swap = natCmp b a := by
  unfold natCmp
  by_cases h1 : a < b <;> by_cases h2 : b < a <;>
    simp [h1, h2, Ordering.swap] <;> omega

theorem natCmp_refl (a : Nat) : natCmp a a = .eq := (natCmp_eq_iff a a).mpr rfl

theorem charCmp_eq_iff (a b : Char) : charCmp a b = .eq ↔ a = b := by
  unfold charCmp
  rw [natCmp_eq_iff]
  constructor
  · intro h
    apply Char.eq_of_val_eq
    apply UInt32.eq_of_toBitVec_eq
    apply BitVec.eq_of_toNat_eq
    exact h
  · intro h; rw [h]

theorem charCmp_swap (a b : Char) : (charCmp a b).swap = charCmp b a :=
  natCmp_swap _ _

theorem listCmp_eq_iff {α : Type} {c : α → α → Ordering}
    (hc : ∀ a b, c a b = .eq ↔ a = b) :
    ∀ as bs : List α, listCmp c as bs = .eq ↔ as = bs := by
  intro as
  induction as with
  | nil => intro bs; cases bs <;> simp [listCmp]
  | cons a as ih =>
    intro bs
    cases bs with
    | nil => simp [listCmp]
    | cons b bs =>
      simp only [listCmp]
      cases h : c a b with
      | eq => simp [ih, (hc a b).mp h]
      | lt => simp; intro hab; exact absurd h (by simp [(hc a b).mpr hab])
      | gt => simp; intro hab; exact absurd h (by simp [(hc a b).mpr hab])

theorem listCmp_swap {α : Type} {c : α → α → Ordering}
    (hc : ∀ a b, (c a b).swap = c b a) :
    ∀ as bs : List α, (listCmp c as bs).swap = listCmp c bs as := by
  intro as
  induction as with
  | nil => intro bs; cases bs <;> simp [listCmp, Ordering.swap]
  | cons a as ih =>
    intro bs
    cases bs with
    | nil => simp [listCmp, Ordering.swap]
    | cons b bs =>
      simp only [listCmp]
      cases h : c a b with
      | eq =>
        have hba : c b a = .eq := by rw [← hc a b, h]; rfl
        simp [hba, ih]
      | lt =>
        have hba : c b a = .gt := by rw [← hc a b, h]; rfl
        simp [hba, Ordering.swap]
      | gt =>
        have hba : c b a = .lt := by rw [← hc a b, h]; rfl
        simp [hba, Ordering.swap]

theorem strCmp_eq_iff (a b : Str) : strCmp a b = .eq ↔ a = b :=
  listCmp_eq_iff charCmp_eq_iff a b

theorem strCmp_swap (a b : Str) : (strCmp a b).swap = strCmp b a :=
  listCmp_swap charCmp_swap a b

theorem ordThen_eq_iff (o p : Ordering) : o.then p = .eq ↔ o = .eq ∧ p = .eq := by
  cases o <;> simp [Ordering.then]

theorem ordThen_swap (o p : Ordering) : (o.then p).swap = o.swap.then p.swap := by
  cases o <;> cases p <;> rfl

theorem ordThen_eq_left (p : Ordering) : Ordering.then .eq p = p := by
  rfl

theorem ppdCmp_eq_iff (a b : PPD) : ppdCmp a b = .eq ↔ a = b := by
  cases a <;> cases b <;> simp only [ppdCmp] <;> try simp
  rename_i t n t' n'
  cases h : strCmp t t' with
  | eq => simp [natCmp_eq_iff, (strCmp_eq_iff t t').mp h]
  | lt =>
    simp
    intro ht
    exact absurd h (by simp [(strCmp_eq_iff t t').mpr ht])
  | gt =>
    simp
    intro ht
    exact absurd h (by simp [(strCmp_eq_iff t t').mpr ht])

theorem ppdCmp_swap (a b : PPD) : (ppdCmp a b).swap = ppdCmp b a := by
  cases a <;> cases b <;> simp only [ppdCmp] <;> try rfl
  rename_i t n t' n'
  cases h : strCmp t t' with
  | eq =>
    have hba : strCmp t' t = .eq := by rw [← strCmp_swap t t', h]; rfl
    simp [hba, natCmp_swap]
  | lt =>
    have hba : strCmp t' t = .gt := by rw [← strCmp_swap t t', h]; rfl
    simp [hba]; rfl
  | gt =>
    have hba : strCmp t' t = .lt := by rw [← strCmp_swap t t', h]; rfl
    simp [hba]; rfl

theorem locEntryCmp_eq_iff (a b : LocEntry) : locEntryCmp a b = .eq ↔ a = b := by
  cases a <;> cases b <;>
    simp [locEntryCmp, natCmp_eq_iff, strCmp_eq_iff]

theorem locEntryCmp_swap (a b : LocEntry) : (locEntryCmp a b).swap = locEntryCmp b a := by
  cases a <;> cases b <;>
    simp [locEntryCmp, natCmp_swap, strCmp_swap] <;> rfl

theorem locEntryCmp_refl (a : LocEntry) : locEntryCmp a a = .eq :=
  (locEntryCmp_eq_iff a a).mpr rfl

theorem localCmp_eq_iff (a b : LocalRank) : localCmp a b = .eq ↔ a = b := by
  cases a <;> cases b <;>
    simp [localCmp, listCmp_eq_iff locEntryCmp_eq_iff]

theorem localCmp_swap (a b : LocalRank) : (localCmp a b).swap = localCmp b a := by
  cases a <;> cases b <;>
    simp [localCmp, listCmp_swap locEntryCmp_swap] <;> rfl

theorem keyCmp_eq_iff (a b : CmpKey) : keyCmp a b = .eq ↔ a = b := by
  obtain ⟨e, r, pr, po, d, l⟩ := a
  obtain ⟨e', r', pr', po', d', l'⟩ := b
  simp [keyCmp, ordThen_eq_iff, natCmp_eq_iff, listCmp_eq_iff natCmp_eq_iff,
    ppdCmp_eq_iff, localCmp_eq_iff, CmpKey.mk.injEq, and_assoc]

theorem keyCmp_swap (a b : CmpKey) : (keyCmp a b).swap = keyCmp b a := by
  simp [keyCmp, ordThen_swap, natCmp_swap, listCmp_swap natCmp_swap,
    ppdCmp_swap, localCmp_swap]

theorem keyCmp_refl (a : CmpKey) : keyCmp a a = .eq := (keyCmp_eq_iff a a).mpr rfl

/--
C1: For every pair of parsed versions exactly one of `a<b`, `a==b`, `a>b`
holds (the six operators come from lexicographic comparison of the `_key`
tuples built by `_cmpkey`, a strict total order); `a<=b` holds iff `a<b`
or `a==b`; `a==b` holds iff the two `ComparisonKey`s are equal — which can
differ from raw string equality, e.g. `"1.0"` and `"1.0.0"` parse to equal
versions even though the strings differ.
-/
theorem C1_strict_total_order :
    (∀ a b : PyVersion,
        (vlt a b = true ∧ veq a b = false ∧ vgt a b = false) ∨
        (vlt a b = false ∧ veq a b = true ∧ vgt a b = false) ∨
        (vlt a b = false ∧ veq a b = false ∧ vgt a b = true)) ∧
    (∀ a b : PyVersion, vle a b = true ↔ (vlt a b = true ∨ veq a b = true)) ∧
    (∀ a b : PyVersion, veq a b = true ↔ vKey a = vKey b) ∧
    (∃ va vb : PyVersion,
        parseVer "1.0".data = some va ∧ parseVer "1.0.0".data = some vb ∧
        veq va vb = true ∧ ("1.0".data : Str) ≠ "1.0.0".data) := by
  refine ⟨?_, ?_, ?_, ?_⟩
  · intro a b
    cases h : keyCmp (vKey a) (vKey b) with
    | lt => exact Or.inl (by simp only [vlt, veq, vgt, h]; decide)
    | eq => exact Or.inr (Or.inl (by simp only [vlt, veq, vgt, h]; decide))
    | gt => exact Or.inr (Or.inr (by simp only [vlt, veq, vgt, h]; decide))
  · intro a b
    cases h : keyCmp (vKey a) (vKey b) <;>
      simp only [vlt, vle, veq, h] <;> decide
  · intro a b
    rw [← keyCmp_eq_iff]
    unfold veq
    cases keyCmp (vKey a) (vKey b) <;> simp <;> decide
  · exact ⟨⟨0, [1, 0], none, none, none, none⟩,
      ⟨0, [1, 0, 0], none, none, none, none⟩, by decide, by decide, by decide,
      by decide⟩

/-!
## The pre-release and local slots of the key (C3, C4)
-/

/--
C3: The pre slot of a version's `ComparisonKey` is the negative-infinity
sentinel when the version has no pre and no post but does have a dev
release (so `1.0.dev0` sorts strictly before `1.0a0`), the
positive-infinity sentinel when there is no pre-release and that dev-only
case does not apply, and the `(tag, number)` pair otherwise — pairs being
ordered with `a < b < rc` (tag string first).
-/
theorem C3_pre_rank (v : PyVersion) :
    ((v.pre = none ∧ v.post = none ∧ v.dev ≠ none) → (vKey v).pre = PPD.ninf) ∧
    ((v.pre = none ∧ ¬(v.post = none ∧ v.dev ≠ none)) → (vKey v).pre = PPD.inf) ∧
    (∀ t n, v.pre = some (t, n) → (vKey v).pre = PPD.val t n) ∧
    (∀ n m, ppdCmp (PPD.val "a".data n) (PPD.val "b".data m) = .lt ∧
            ppdCmp (PPD.val "b".data n) (PPD.val "rc".data m) = .lt) ∧
    (∃ va vb : PyVersion,
        parseVer "1.0.dev0".data = some va ∧ parseVer "1.0a0".data = some vb ∧
        vlt va vb = true) := by
  refine ⟨?_, ?_, ?_, ?_, ?_⟩
  · rintro ⟨h1, h2, h3⟩
    obtain ⟨d, hd⟩ := Option.ne_none_iff_exists'.mp h3
    simp [vKey, _cmpkey, h1, h2, hd]
  · rintro ⟨h1, h2⟩
    rcases hpo : v.post with _ | po
    · rcases hd : v.dev with _ | d
      · simp [vKey, _cmpkey, h1, hpo, hd]
      · exact absurd ⟨hpo, by simp [hd]⟩ h2
    · simp [vKey, _cmpkey, h1, hpo]
  · intro t n h
    simp [vKey, _cmpkey, h]
  · intro n m
    constructor <;> rfl
  · exact ⟨⟨0, [1, 0], none, none, some ("dev".data, 0), none⟩,
      ⟨0, [1, 0], some ("a".data, 0), none, none, none⟩, by decide, by decide,
      by decide⟩

/-- C3 witness: the theorem applied at concrete versions, discharging the
hypotheses of the first two conjuncts. -/
theorem C3_pre_rank_witness :
    (vKey ⟨0, [1, 0], none, none, some ("dev".data, 0), none⟩).pre = PPD.ninf ∧
    (vKey ⟨0, [1, 0], none, none, none, none⟩).pre = PPD.inf :=
  ⟨(C3_pre_rank ⟨0, [1, 0], none, none, some ("dev".data, 0), none⟩).1
      ⟨rfl, rfl, by decide⟩,
   (C3_pre_rank ⟨0, [1, 0], none, none, none, none⟩).2.1 ⟨rfl, by decide⟩⟩

theorem listCmp_append_lt {α : Type} {c : α → α → Ordering}
    (hrefl : ∀ x, c x x = .eq) :
    ∀ (xs ys : List α), ys ≠ [] → listCmp c xs (xs ++ ys) = .lt := by
  intro xs
  induction xs with
  | nil =>
    intro ys hys
    cases ys with
    | nil => exact absurd rfl hys
    | cons y ys => simp [listCmp]
  | cons x xs ih =>
    intro ys hys
    simp only [List.cons_append, listCmp, hrefl x]
    exact ih ys hys

/-- When two keys agree on everything except the local slot, their
comparison is the comparison of the local slots. -/
theorem keyCmp_loc (a b : CmpKey) (h1 : a.epoch = b.epoch)
    (h2 : a.release = b.release) (h3 : a.pre = b.pre) (h4 : a.post = b.post)
    (h5 : a.dev = b.dev) :
    keyCmp a b = localCmp a.locRank b.locRank := by
  unfold keyCmp
  rw [h1, h2, h3, h4, h5, natCmp_refl,
    (listCmp_eq_iff natCmp_eq_iff _ _).mpr rfl,
    (ppdCmp_eq_iff _ _).mpr rfl, (ppdCmp_eq_iff _ _).mpr rfl,
    (ppdCmp_eq_iff _ _).mpr rfl]
  rfl

/--
C4: For versions that differ only in the local segment: no-local sorts
strictly before any local; a string segment sorts strictly before a
numeric segment at the same position (so `1.0+abc < 1.0+1`); same-kind
segments compare numerically resp. lexicographically; and a local tuple
that is a strict prefix of another sorts before it.
-/
theorem C4_local_rank (a b : PyVersion)
    (h : a.epoch = b.epoch ∧ a.release = b.release ∧ a.pre = b.pre ∧
         a.post = b.post ∧ a.dev = b.dev) :
    (a.locSegs = none → ∀ l, b.locSegs = some l → vlt a b = true) ∧
    (∀ l m, a.locSegs = some l → b.locSegs = some (l ++ m) → m ≠ [] →
        vlt a b = true) ∧
    (∀ s n, locEntryCmp (LocEntry.str s) (LocEntry.num n) = .lt) ∧
    (∀ m n, locEntryCmp (LocEntry.num m) (LocEntry.num n) = natCmp m n) ∧
    (∀ s t, locEntryCmp (LocEntry.str s) (LocEntry.str t) = strCmp s t) ∧
    (∃ va vb : PyVersion,
        parseVer "1.0+abc".data = some va ∧ parseVer "1.0+1".data = some vb ∧
        vlt va vb = true) := by
  obtain ⟨h1, h2, h3, h4, h5⟩ := h
  have hkey : keyCmp (vKey a) (vKey b) = localCmp (vKey a).locRank (vKey b).locRank := by
    apply keyCmp_loc <;> simp [vKey, _cmpkey, h1, h2, h3, h4, h5]
  refine ⟨?_, ?_, ?_, ?_, ?_, ?_⟩
  · intro ha l hb
    have hra : (vKey a).locRank = .ninf := by simp [vKey, _cmpkey, ha]
    have hrb : (vKey b).locRank = .segs (l.map fun seg =>
        match seg with | .inl i => .num i | .inr s => .str s) := by
      simp [vKey, _cmpkey, hb]
    simp only [vlt, hkey, hra, hrb, localCmp]
    decide
  · intro l m ha hb hm
    have hra : (vKey a).locRank = .segs (l.map fun seg =>
        match seg with | .inl i => .num i | .inr s => .str s) := by
      simp [vKey, _cmpkey, ha]
    have hrb : (vKey b).locRank = .segs ((l ++ m).map fun seg =>
        match seg with | .inl i => .num i | .inr s => .str s) := by
      simp [vKey, _cmpkey, hb]
    rw [List.map_append] at hrb
    simp only [vlt, hkey, hra, hrb, localCmp]
    rw [listCmp_append_lt locEntryCmp_refl _ _ (by simpa using hm)]
    decide
  · intro s n; rfl
  · intro m n; rfl
  · intro s t; rfl
  · exact ⟨⟨0, [1, 0], none, none, none, some [.inr "abc".data]⟩,
      ⟨0, [1, 0], none, none, none, some [.inl 1]⟩, by decide, by decide,
      by decide⟩

/-- C4 witness: the theorem applied at concrete versions differing only in
the local slot. -/
theorem C4_local_rank_witness :
    vlt ⟨0, [1], none, none, none, none⟩
        ⟨0, [1], none, none, none, some [Sum.inr "x".data]⟩ = true :=
  (C4_local_rank ⟨0, [1], none, none, none, none⟩
      ⟨0, [1], none, none, none, some [Sum.inr "x".data]⟩
      ⟨rfl, rfl, rfl, rfl, rfl⟩).1 rfl [Sum.inr "x".data] rfl

/-!
## Decimal rendering and digit runs
-/

theorem toNat_ofNat_digit (d : Nat) (h : d < 10) :
    (Char.ofNat (48 + d)).toNat = 48 + d := by
  interval_cases d <;> decide

theorem isDig_ofNat_digit (d : Nat) (h : d < 10) :
    isDig (Char.ofNat (48 + d)) = true := by
  interval_cases d <;> decide

theorem natToDigitsAux_fuel :
    ∀ fuel fuel' n, n < fuel → n < fuel' →
      natToDigitsAux fuel n = natToDigitsAux fuel' n := by
  intro fuel
  induction fuel with
  | zero => intro fuel' n h; omega
  | succ f ih =>
    intro fuel' n h h'
    cases fuel' with
    | zero => omega
    | succ f' =>
      simp only [natToDigitsAux]
      by_cases h10 : n < 10
      · simp [h10]
      · simp only [h10, if_false]
        rw [ih f' (n / 10) (by omega) (by omega)]

theorem natToDigits_unfold (n : Nat) :
    natToDigits n =
      if n < 10 then [Char.ofNat (48 + n)]
      else natToDigits (n / 10) ++ [Char.ofNat (48 + n % 10)] := by
  by_cases h10 : n < 10
  · simp [natToDigits, natToDigitsAux, h10]
  · have h1 : natToDigits n = natToDigitsAux n (n / 10) ++ [Char.ofNat (48 + n % 10)] := by
      show natToDigitsAux (n + 1) n = _
      rw [natToDigitsAux]
      simp [h10]
    rw [h1, natToDigitsAux_fuel n (n / 10 + 1) (n / 10) (by omega) (by omega)]
    simp only [h10, if_false]
    rfl

theorem natToDigits_ne_nil (n : Nat) : natToDigits n ≠ [] := by
  rw [natToDigits_unfold]
  by_cases h10 : n < 10 <;> simp [h10]

theorem natToDigits_all_digits (n : Nat) :
    ∀ c ∈ natToDigits n, isDig c = true := by
  induction n using Nat.strong_induction_on with
  | _ n ih =>
    rw [natToDigits_unfold]
    by_cases h10 : n < 10
    · simp only [h10, if_true]
      intro c hc
      simp at hc
      rw [hc]
      exact isDig_ofNat_digit n h10
    · simp only [h10, if_false]
      intro c hc
      rcases List.mem_append.mp hc with hmem | hmem
      · exact ih (n / 10) (by omega) c hmem
      · simp at hmem
        rw [hmem]
        exact isDig_ofNat_digit (n % 10) (by omega)

theorem digitsToNat_append_digit (xs : Str) (c : Char) :
    digitsToNat (xs ++ [c]) = 10 * digitsToNat xs + (c.toNat - 48) := by
  unfold digitsToNat
  rw [List.foldl_append]
  rfl

theorem digitsToNat_natToDigits (n : Nat) :
    digitsToNat (natToDigits n) = n := by
  induction n using Nat.strong_induction_on with
  | _ n ih =>
    rw [natToDigits_unfold]
    by_cases h10 : n < 10
    · simp only [h10, if_true]
      show digitsToNat ([] ++ [Char.ofNat (48 + n)]) = n
      rw [digitsToNat_append_digit, toNat_ofNat_digit n h10]
      simp [digitsToNat]
    · simp only [h10, if_false]
      rw [digitsToNat_append_digit, ih (n / 10) (by omega),
        toNat_ofNat_digit (n % 10) (by omega)]
      omega

theorem natToDigits_head_digit (n : Nat) : headDig (natToDigits n) = true := by
  cases h : natToDigits n with
  | nil => exact absurd h (natToDigits_ne_nil n)
  | cons c cs =>
    have : isDig c = true := natToDigits_all_digits n c (by rw [h]; simp)
    simp [headDig, this]

theorem isDig_not_sep (c : Char) (h : isDig c = true) : isSepB c = false := by
  unfold isDig at h
  unfold isSepB
  simp only [Bool.and_eq_true, decide_eq_true_eq] at h
  simp only [Bool.or_eq_false_iff, beq_eq_false_iff_ne]
  refine ⟨⟨?_, ?_⟩, ?_⟩ <;> intro hc <;> rw [hc] at h <;> revert h <;> decide

theorem isDig_isAlnum (c : Char) (h : isDig c = true) : isAlnum c = true := by
  simp [isAlnum, h]

theorem takeDigits_of_headNotDig (cs : Str) (h : headDig cs = false) :
    takeDigits cs = ([], cs) := by
  cases cs with
  | nil => rfl
  | cons c cs' =>
    simp only [headDig] at h
    simp [takeDigits, h]

theorem takeDigits_append (ds rest : Str) (hd : ∀ c ∈ ds, isDig c = true)
    (hr : headDig rest = false) : takeDigits (ds ++ rest) = (ds, rest) := by
  induction ds with
  | nil => exact takeDigits_of_headNotDig rest hr
  | cons d ds' ih =>
    have hdd : isDig d = true := hd d (by simp)
    simp only [List.cons_append, takeDigits, hdd, if_true, List.append_eq]
    rw [ih (fun c hc => hd c (by simp [hc]))]

theorem takeAlnum_of_headNotAln (cs : Str) (h : headAln cs = false) :
    takeAlnum cs = ([], cs) := by
  cases cs with
  | nil => rfl
  | cons c cs' =>
    simp only [headAln] at h
    simp [takeAlnum, h]

theorem takeAlnum_append (ds rest : Str) (hd : ∀ c ∈ ds, isAlnum c = true)
    (hr : headAln rest = false) : takeAlnum (ds ++ rest) = (ds, rest) := by
  induction ds with
  | nil => exact takeAlnum_of_headNotAln rest hr
  | cons d ds' ih =>
    have hdd : isAlnum d = true := hd d (by simp)
    simp only [List.cons_append, takeAlnum, hdd, if_true, List.append_eq]
    rw [ih (fun c hc => hd c (by simp [hc]))]

/-!
## Release-segment roundtrip
-/

theorem dotTail_cons (s : Str) (ss : List Str) :
    dotTail (s :: ss) = '.' :: (s ++ dotTail ss) := by
  simp [dotTail]

theorem joinDots_cons : ∀ (s : Str) (ss : List Str),
    joinDots (s :: ss) = s ++ dotTail ss := by
  intro s ss
  induction ss generalizing s with
  | nil => simp [joinDots, dotTail]
  | cons t ts ih =>
    rw [show joinDots (s :: t :: ts) = s ++ '.' :: joinDots (t :: ts) from rfl,
      ih t, dotTail_cons]

theorem dotTail_length_ge (l : List Str) : l.length ≤ (dotTail l).length := by
  induction l with
  | nil => simp [dotTail]
  | cons s ss ih =>
    rw [dotTail_cons]
    simp only [List.length_cons, List.length_append]
    omega

theorem headDig_dotTail_nats (ns : List Nat) (rest : Str)
    (hr : headDig rest = false) :
    headDig (dotTail (ns.map natToDigits) ++ rest) = false := by
  cases ns with
  | nil => simpa [dotTail] using hr
  | cons n ns' =>
    rw [List.map_cons, dotTail_cons]
    show isDig '.' = false
    decide

theorem parseDotNatsF_step (f : Nat) (cs : Str) :
    parseDotNatsF (f + 1) ('.' :: cs) =
      (match takeDigits cs with
       | (d :: ds, rest') =>
         (match parseDotNatsF f rest' with
          | (ns, r) => (digitsToNat (d :: ds) :: ns, r))
       | ([], _) => ([], '.' :: cs)) := rfl

theorem parseDotNatsF_stop (fuel : Nat) (cs : Str)
    (h : ∀ r, cs = '.' :: r → headDig r = false) :
    parseDotNatsF fuel cs = ([], cs) := by
  cases fuel with
  | zero => rfl
  | succ f =>
    cases cs with
    | nil => rfl
    | cons c r =>
      by_cases hc : c = '.'
      · subst hc
        rw [parseDotNatsF_step, takeDigits_of_headNotDig r (h r rfl)]
      · unfold parseDotNatsF
        split
        · rename_i r' heq
          injection heq with h1 h2
          exact absurd h1 hc
        · rfl

theorem parseDotNatsF_roundtrip :
    ∀ (rel : List Nat) (fuel : Nat) (rest : Str), rel.length ≤ fuel →
      headDig rest = false →
      (∀ r, rest = '.' :: r → headDig r = false) →
      parseDotNatsF fuel (dotTail (rel.map natToDigits) ++ rest) = (rel, rest) := by
  intro rel
  induction rel with
  | nil =>
    intro fuel rest _ _ hdot
    rw [show dotTail (List.map natToDigits []) ++ rest = rest by simp [dotTail]]
    exact parseDotNatsF_stop fuel rest hdot
  | cons n ns ih =>
    intro fuel rest hfuel hr hdot
    cases fuel with
    | zero => simp at hfuel
    | succ f =>
      rw [List.map_cons, dotTail_cons]
      obtain ⟨d, ds, hnd⟩ : ∃ d ds, natToDigits n = d :: ds := by
        cases hx : natToDigits n with
        | nil => exact absurd hx (natToDigits_ne_nil n)
        | cons d ds => exact ⟨d, ds, rfl⟩
      have htake : takeDigits (natToDigits n ++ (dotTail (ns.map natToDigits) ++ rest))
          = (natToDigits n, dotTail (ns.map natToDigits) ++ rest) :=
        takeDigits_append _ _ (natToDigits_all_digits n) (headDig_dotTail_nats ns rest hr)
      simp only [List.cons_append, List.append_assoc]
      rw [parseDotNatsF_step, htake, hnd]
      show (match parseDotNatsF f (dotTail (ns.map natToDigits) ++ rest) with
            | (ns', r) => (digitsToNat (d :: ds) :: ns', r)) = (n :: ns, rest)
      rw [ih f rest (by simpa using hfuel) hr hdot]
      show (digitsToNat (d :: ds) :: ns, rest) = (n :: ns, rest)
      rw [← hnd, digitsToNat_natToDigits]

theorem parseRelease_roundtrip (rel : List Nat) (rest : Str) (hrel : rel ≠ [])
    (hr : headDig rest = false)
    (hdot : ∀ r, rest = '.' :: r → headDig r = false) :
    parseRelease (releaseStr rel ++ rest) = some (rel, rest) := by
  cases rel with
  | nil => exact absurd rfl hrel
  | cons n ns =>
    obtain ⟨d, ds, hnd⟩ : ∃ d ds, natToDigits n = d :: ds := by
      cases hx : natToDigits n with
      | nil => exact absurd hx (natToDigits_ne_nil n)
      | cons d ds => exact ⟨d, ds, rfl⟩
    have hmid : headDig (dotTail (ns.map natToDigits) ++ rest) = false :=
      headDig_dotTail_nats ns rest hr
    have htake : takeDigits (natToDigits n ++ (dotTail (ns.map natToDigits) ++ rest))
        = (natToDigits n, dotTail (ns.map natToDigits) ++ rest) :=
      takeDigits_append _ _ (natToDigits_all_digits n) hmid
    unfold releaseStr
    rw [List.map_cons, joinDots_cons, List.append_assoc]
    unfold parseRelease
    rw [htake, hnd]
    show some (digitsToNat (d :: ds) ::
        (parseDotNatsF (dotTail (ns.map natToDigits) ++ rest).length
          (dotTail (ns.map natToDigits) ++ rest)).1,
        (parseDotNatsF (dotTail (ns.map natToDigits) ++ rest).length
          (dotTail (ns.map natToDigits) ++ rest)).2) = some (n :: ns, rest)
    have hfuel : ns.length ≤ (dotTail (ns.map natToDigits) ++ rest).length := by
      have h1 := dotTail_length_ge (ns.map natToDigits)
      simp only [List.length_append, List.length_map] at h1 ⊢
      omega
    rw [parseDotNatsF_roundtrip ns _ rest hfuel hr hdot, ← hnd,
      digitsToNat_natToDigits]

/-!
## Pre/post/dev-segment roundtrip
-/

theorem consumeOptSepDigits_digits (n : Nat) (rest : Str)
    (hr : headDig rest = false) :
    consumeOptSepDigits (natToDigits n ++ rest) = (n, rest) := by
  obtain ⟨d, ds, hnd⟩ : ∃ d ds, natToDigits n = d :: ds := by
    cases hx : natToDigits n with
    | nil => exact absurd hx (natToDigits_ne_nil n)
    | cons d ds => exact ⟨d, ds, rfl⟩
  have hd : isDig d = true := natToDigits_all_digits n d (by rw [hnd]; simp)
  have hsep : isSepB d = false := isDig_not_sep d hd
  have htake : takeDigits (natToDigits n ++ rest) = (natToDigits n, rest) :=
    takeDigits_append _ _ (natToDigits_all_digits n) hr
  rw [hnd] at htake ⊢
  simp only [List.cons_append] at htake ⊢
  unfold consumeOptSepDigits consumeOptSep
  simp only [hsep, Bool.false_eq_true, if_false, htake]
  rw [show digitsToNat (d :: ds) = n from by rw [← hnd, digitsToNat_natToDigits]]

theorem parsePre_of_match (cs t rest : Str)
    (h : matchFirstTag preTags (consumeOptSep cs) = some (t, rest)) :
    parsePre cs = (some (normalizeTag t, (consumeOptSepDigits rest).1),
                   (consumeOptSepDigits rest).2) := by
  unfold parsePre
  rw [h]

theorem parsePre_of_none (cs : Str)
    (h : matchFirstTag preTags (consumeOptSep cs) = none) :
    parsePre cs = (none, cs) := by
  unfold parsePre
  rw [h]

theorem parsePre_tag_a (n : Nat) (rest : Str) (hr : headDig rest = false) :
    parsePre ('a' :: (natToDigits n ++ rest)) = (some ("a".data, n), rest) := by
  obtain ⟨d, ds, hnd⟩ : ∃ d ds, natToDigits n = d :: ds := by
    cases hx : natToDigits n with
    | nil => exact absurd hx (natToDigits_ne_nil n)
    | cons d ds => exact ⟨d, ds, rfl⟩
  have hd : isDig d = true := natToDigits_all_digits n d (by rw [hnd]; simp)
  have hdl : d ≠ 'l' := by intro h; rw [h] at hd; revert hd; decide
  have key := consumeOptSepDigits_digits n rest hr
  have hm : matchFirstTag preTags
      (consumeOptSep ('a' :: (natToDigits n ++ rest)))
      = some ("a".data, natToDigits n ++ rest) := by
    rw [show consumeOptSep ('a' :: (natToDigits n ++ rest))
          = 'a' :: (natToDigits n ++ rest) from rfl, hnd]
    simp only [List.cons_append]
    simp [preTags, matchFirstTag, stripTag, hdl]
  rw [parsePre_of_match _ _ _ hm, key]
  rfl

theorem parsePre_tag_b (n : Nat) (rest : Str) (hr : headDig rest = false) :
    parsePre ('b' :: (natToDigits n ++ rest)) = (some ("b".data, n), rest) := by
  obtain ⟨d, ds, hnd⟩ : ∃ d ds, natToDigits n = d :: ds := by
    cases hx : natToDigits n with
    | nil => exact absurd hx (natToDigits_ne_nil n)
    | cons d ds => exact ⟨d, ds, rfl⟩
  have hd : isDig d = true := natToDigits_all_digits n d (by rw [hnd]; simp)
  have hde : d ≠ 'e' := by intro h; rw [h] at hd; revert hd; decide
  have key := consumeOptSepDigits_digits n rest hr
  have hm : matchFirstTag preTags
      (consumeOptSep ('b' :: (natToDigits n ++ rest)))
      = some ("b".data, natToDigits n ++ rest) := by
    rw [show consumeOptSep ('b' :: (natToDigits n ++ rest))
          = 'b' :: (natToDigits n ++ rest) from rfl, hnd]
    simp only [List.cons_append]
    simp [preTags, matchFirstTag, stripTag, hde]
  rw [parsePre_of_match _ _ _ hm, key]
  rfl

theorem parsePre_tag_rc (n : Nat) (rest : Str) (hr : headDig rest = false) :
    parsePre ('r' :: 'c' :: (natToDigits n ++ rest))
      = (some ("rc".data, n), rest) := by
  have key := consumeOptSepDigits_digits n rest hr
  have hm : matchFirstTag preTags
      (consumeOptSep ('r' :: 'c' :: (natToDigits n ++ rest)))
      = some ("rc".data, natToDigits n ++ rest) := by
    rw [show consumeOptSep ('r' :: 'c' :: (natToDigits n ++ rest))
          = 'r' :: 'c' :: (natToDigits n ++ rest) from rfl]
    simp [preTags, matchFirstTag, stripTag]
  rw [parsePre_of_match _ _ _ hm, key]
  rfl

theorem parsePre_none_post (X : Str) :
    parsePre ('.' :: 'p' :: 'o' :: 's' :: 't' :: X)
      = (none, '.' :: 'p' :: 'o' :: 's' :: 't' :: X) := by
  apply parsePre_of_none
  rw [show consumeOptSep ('.' :: 'p' :: 'o' :: 's' :: 't' :: X)
        = 'p' :: 'o' :: 's' :: 't' :: X from rfl]
  simp [preTags, matchFirstTag, stripTag]

theorem parsePre_none_dev (X : Str) :
    parsePre ('.' :: 'd' :: 'e' :: 'v' :: X)
      = (none, '.' :: 'd' :: 'e' :: 'v' :: X) := by
  apply parsePre_of_none
  rw [show consumeOptSep ('.' :: 'd' :: 'e' :: 'v' :: X)
        = 'd' :: 'e' :: 'v' :: X from rfl]
  simp [preTags, matchFirstTag, stripTag]

theorem parsePre_none_plus (X : Str) :
    parsePre ('+' :: X) = (none, '+' :: X) := by
  apply parsePre_of_none
  rw [show consumeOptSep ('+' :: X) = '+' :: X from rfl]
  simp [preTags, matchFirstTag, stripTag]

theorem parsePre_none_nil : parsePre [] = (none, []) := rfl

theorem parsePost_dot (X : Str) :
    parsePost ('.' :: X) =
      (match matchFirstTag postTags X with
       | some (t, rest) => (some (normalizeTag t, (consumeOptSepDigits rest).1),
                            (consumeOptSepDigits rest).2)
       | none => (none, '.' :: X)) := rfl

theorem parsePost_some (n : Nat) (rest : Str) (hr : headDig rest = false) :
    parsePost ('.' :: 'p' :: 'o' :: 's' :: 't' :: (natToDigits n ++ rest))
      = (some ("post".data, n), rest) := by
  have key := consumeOptSepDigits_digits n rest hr
  rw [parsePost_dot,
    show matchFirstTag postTags ('p' :: 'o' :: 's' :: 't' :: (natToDigits n ++ rest))
        = some ("post".data, natToDigits n ++ rest) from by
      simp [postTags, matchFirstTag, stripTag]]
  show (some (normalizeTag "post".data, (consumeOptSepDigits (natToDigits n ++ rest)).1),
        (consumeOptSepDigits (natToDigits n ++ rest)).2) = (some ("post".data, n), rest)
  rw [key]
  rfl

theorem parsePost_none_dev (X : Str) :
    parsePost ('.' :: 'd' :: 'e' :: 'v' :: X)
      = (none, '.' :: 'd' :: 'e' :: 'v' :: X) := by
  rw [parsePost_dot,
    show matchFirstTag postTags ('d' :: 'e' :: 'v' :: X) = none from by
      simp [postTags, matchFirstTag, stripTag]]

theorem parsePost_none_plus (X : Str) :
    parsePost ('+' :: X) = (none, '+' :: X) := by
  show (match matchFirstTag postTags (consumeOptSep ('+' :: X)) with
        | some (t, rest) => (some (normalizeTag t, (consumeOptSepDigits rest).1),
                             (consumeOptSepDigits rest).2)
        | none => (none, '+' :: X)) = (none, '+' :: X)
  rw [show consumeOptSep ('+' :: X) = '+' :: X from rfl,
    show matchFirstTag postTags ('+' :: X) = none from by
      simp [postTags, matchFirstTag, stripTag]]

theorem parsePost_none_nil : parsePost [] = (none, []) := rfl

theorem parseDev_of_none (cs : Str)
    (h : matchFirstTag devTags (consumeOptSep cs) = none) :
    parseDev cs = (none, cs) := by
  unfold parseDev
  rw [h]

theorem parseDev_some (n : Nat) (rest : Str) (hr : headDig rest = false) :
    parseDev ('.' :: 'd' :: 'e' :: 'v' :: (natToDigits n ++ rest))
      = (some ("dev".data, n), rest) := by
  have key := consumeOptSepDigits_digits n rest hr
  unfold parseDev
  rw [show consumeOptSep ('.' :: 'd' :: 'e' :: 'v' :: (natToDigits n ++ rest))
        = 'd' :: 'e' :: 'v' :: (natToDigits n ++ rest) from rfl,
    show matchFirstTag devTags ('d' :: 'e' :: 'v' :: (natToDigits n ++ rest))
        = some ("dev".data, natToDigits n ++ rest) from by
      simp [devTags, matchFirstTag, stripTag]]
  show (some (normalizeTag "dev".data, (consumeOptSepDigits (natToDigits n ++ rest)).1),
        (consumeOptSepDigits (natToDigits n ++ rest)).2) = (some ("dev".data, n), rest)
  rw [key]
  rfl

theorem parseDev_none_plus (X : Str) :
    parseDev ('+' :: X) = (none, '+' :: X) := by
  apply parseDev_of_none
  rw [show consumeOptSep ('+' :: X) = '+' :: X from rfl]
  simp [devTags, matchFirstTag, stripTag]

theorem parseDev_none_nil : parseDev [] = (none, []) := rfl

/-!
## Local-segment roundtrip
-/

theorem takeAlnum_all : ∀ cs : Str, ∀ c ∈ (takeAlnum cs).1, isAlnum c = true := by
  intro cs
  induction cs with
  | nil => intro c hc; simp [takeAlnum] at hc
  | cons x xs ih =>
    intro c hc
    by_cases hx : isAlnum x
    · simp only [takeAlnum, hx, if_true] at hc
      rcases List.mem_cons.mp hc with h | h
      · rw [h]; exact hx
      · exact ih c h
    · simp only [takeAlnum, hx, Bool.false_eq_true, if_false] at hc
      simp at hc

theorem segStr_wf (s : Sum Nat Str) (h : WfSeg s) :
    segStr s ≠ [] ∧ (∀ c ∈ segStr s, isAlnum c = true) ∧ mkSeg (segStr s) = s := by
  cases s with
  | inl n =>
    refine ⟨natToDigits_ne_nil n, ?_, ?_⟩
    · intro c hc
      exact isDig_isAlnum c (natToDigits_all_digits n c hc)
    · unfold mkSeg segStr
      rw [if_pos (List.all_eq_true.mpr (natToDigits_all_digits n)),
        digitsToNat_natToDigits]
  | inr t =>
    obtain ⟨hne, haln, hnd⟩ := h
    refine ⟨hne, haln, ?_⟩
    unfold mkSeg segStr
    rw [if_neg hnd]

theorem headAln_dotTail_segs (ss : List (Sum Nat Str)) :
    headAln (dotTail (ss.map segStr)) = false := by
  cases ss with
  | nil => rfl
  | cons s ss' =>
    rw [List.map_cons, dotTail_cons]
    show isAlnum '.' = false
    decide

theorem parseLocTailF_dot (f : Nat) (cs : Str) :
    parseLocTailF (f + 1) ('.' :: cs) =
      (match takeAlnum cs with
       | (a :: as, rest') =>
         (match parseLocTailF f rest' with
          | (segs, r) => (mkSeg (a :: as) :: segs, r))
       | ([], _) => ([], '.' :: cs)) := rfl

theorem parseLocTailF_roundtrip :
    ∀ (ss : List (Sum Nat Str)) (fuel : Nat), ss.length ≤ fuel →
      (∀ s ∈ ss, WfSeg s) →
      parseLocTailF fuel (dotTail (ss.map segStr)) = (ss, []) := by
  intro ss
  induction ss with
  | nil =>
    intro fuel _ _
    cases fuel <;> rfl
  | cons s ss' ih =>
    intro fuel hfuel hwf
    cases fuel with
    | zero => simp at hfuel
    | succ f =>
      obtain ⟨hne, haln, hmk⟩ := segStr_wf s (hwf s (by simp))
      obtain ⟨a, as, has⟩ : ∃ a as, segStr s = a :: as := by
        cases hx : segStr s with
        | nil => exact absurd hx hne
        | cons a as => exact ⟨a, as, rfl⟩
      have htake : takeAlnum (segStr s ++ dotTail (ss'.map segStr))
          = (segStr s, dotTail (ss'.map segStr)) :=
        takeAlnum_append _ _ haln (headAln_dotTail_segs ss')
      rw [List.map_cons, dotTail_cons, parseLocTailF_dot, htake, has]
      show (match parseLocTailF f (dotTail (ss'.map segStr)) with
            | (segs, r) => (mkSeg (a :: as) :: segs, r)) = (s :: ss', [])
      rw [ih f (by simpa using hfuel) (fun x hx => hwf x (by simp [hx]))]
      show (mkSeg (a :: as) :: ss', []) = (s :: ss', [])
      rw [← has, hmk]

theorem parseLocal_plus (X : Str) :
    parseLocal ('+' :: X) =
      (match takeAlnum X with
       | (a :: as, rest') =>
         (match parseLocTailF rest'.length rest' with
          | (segs, r) => some (some (mkSeg (a :: as) :: segs), r))
       | ([], _) => none) := rfl

theorem parseLocal_roundtrip (l : Option (List (Sum Nat Str)))
    (hw : ∀ ss, l = some ss → ss ≠ [] ∧ ∀ s ∈ ss, WfSeg s) :
    parseLocal (locStr l) = some (l, []) := by
  cases l with
  | none => rfl
  | some ss =>
    cases ss with
    | nil => exact absurd rfl (hw [] rfl).1
    | cons s ss' =>
      have hwf : ∀ x ∈ s :: ss', WfSeg x := (hw (s :: ss') rfl).2
      obtain ⟨hne, haln, hmk⟩ := segStr_wf s (hwf s (by simp))
      obtain ⟨a, as, has⟩ : ∃ a as, segStr s = a :: as := by
        cases hx : segStr s with
        | nil => exact absurd hx hne
        | cons a as => exact ⟨a, as, rfl⟩
      have htake : takeAlnum (segStr s ++ dotTail (ss'.map segStr))
          = (segStr s, dotTail (ss'.map segStr)) :=
        takeAlnum_append _ _ haln (headAln_dotTail_segs ss')
      show parseLocal ('+' :: joinDots ((s :: ss').map segStr)) = _
      rw [List.map_cons, joinDots_cons, parseLocal_plus, htake, has]
      have hfuel : ss'.length ≤ (dotTail (ss'.map segStr)).length := by
        have h1 := dotTail_length_ge (ss'.map segStr)
        simpa using h1
      show (match parseLocTailF (dotTail (ss'.map segStr)).length
              (dotTail (ss'.map segStr)) with
            | (segs, r) => some (some (mkSeg (a :: as) :: segs), r)) = _
      rw [parseLocTailF_roundtrip ss' _ hfuel
        (fun x hx => hwf x (by simp [hx]))]
      show some (some (mkSeg (a :: as) :: ss'), []) = _
      rw [← has, hmk]

/-!
## Epoch step and assembled segment steps
-/

theorem parseEpoch_of_snd_not_bang (cs : Str)
    (h : ∀ r, (takeDigits cs).2 ≠ '!' :: r) : parseEpoch cs = (0, cs) := by
  unfold parseEpoch
  split
  · rename_i d ds rest heq
    exact absurd (by rw [heq]) (h rest)
  · rfl

theorem parseEpoch_digits (e : Nat) (rest : Str) :
    parseEpoch (natToDigits e ++ ('!' :: rest)) = (e, rest) := by
  obtain ⟨d, ds, hnd⟩ : ∃ d ds, natToDigits e = d :: ds := by
    cases hx : natToDigits e with
    | nil => exact absurd hx (natToDigits_ne_nil e)
    | cons d ds => exact ⟨d, ds, rfl⟩
  have htake : takeDigits (natToDigits e ++ ('!' :: rest))
      = (natToDigits e, '!' :: rest) :=
    takeDigits_append _ _ (natToDigits_all_digits e) rfl
  unfold parseEpoch
  rw [htake, hnd]
  show (digitsToNat (d :: ds), rest) = (e, rest)
  rw [← hnd, digitsToNat_natToDigits]

theorem headDig_tail3 (post dev : Option (Str × Nat))
    (loc : Option (List (Sum Nat Str))) :
    headDig (postStr post ++ (devStr dev ++ locStr loc)) = false := by
  cases post with
  | some p => obtain ⟨t, n⟩ := p; rfl
  | none =>
    cases dev with
    | some p => obtain ⟨t, n⟩ := p; rfl
    | none =>
      cases loc with
      | some l => cases l with | nil => rfl | cons s ss => rfl
      | none => rfl

theorem headDig_tail2 (dev : Option (Str × Nat))
    (loc : Option (List (Sum Nat Str))) :
    headDig (devStr dev ++ locStr loc) = false := by
  cases dev with
  | some p => obtain ⟨t, n⟩ := p; rfl
  | none =>
    cases loc with
    | some l => cases l with | nil => rfl | cons s ss => rfl
    | none => rfl

theorem headDig_locStr (loc : Option (List (Sum Nat Str))) :
    headDig (locStr loc) = false := by
  cases loc with
  | some l => cases l with | nil => rfl | cons s ss => rfl
  | none => rfl

theorem parsePre_full (pre post dev : Option (Str × Nat))
    (loc : Option (List (Sum Nat Str)))
    (hpre : ∀ t n, pre = some (t, n) →
      t = "a".data ∨ t = "b".data ∨ t = "rc".data) :
    parsePre (preStr pre ++ (postStr post ++ (devStr dev ++ locStr loc)))
      = (pre, postStr post ++ (devStr dev ++ locStr loc)) := by
  have hP := headDig_tail3 post dev loc
  cases pre with
  | some p =>
    obtain ⟨t, n⟩ := p
    rcases hpre t n rfl with ht | ht | ht <;> subst ht
    · show parsePre (('a' :: natToDigits n) ++ _) = _
      rw [List.cons_append, parsePre_tag_a n _ hP]
    · show parsePre (('b' :: natToDigits n) ++ _) = _
      rw [List.cons_append, parsePre_tag_b n _ hP]
    · show parsePre (('r' :: 'c' :: natToDigits n) ++ _) = _
      rw [List.cons_append, List.cons_append, parsePre_tag_rc n _ hP]
  | none =>
    show parsePre (postStr post ++ (devStr dev ++ locStr loc)) = _
    cases post with
    | some p =>
      obtain ⟨t, n⟩ := p
      show parsePre (('.' :: 'p' :: 'o' :: 's' :: 't' :: natToDigits n) ++ _) = _
      simp only [List.cons_append]
      rw [parsePre_none_post]
      simp [postStr, List.cons_append]
    | none =>
      show parsePre (devStr dev ++ locStr loc) = _
      cases dev with
      | some p =>
        obtain ⟨t, n⟩ := p
        show parsePre (('.' :: 'd' :: 'e' :: 'v' :: natToDigits n) ++ _) = _
        simp only [List.cons_append]
        rw [parsePre_none_dev]
        simp [postStr, devStr, List.cons_append]
      | none =>
        show parsePre (locStr loc) = _
        cases loc with
        | some l =>
          cases l with
          | nil => exact parsePre_none_nil
          | cons s ss =>
            show parsePre ('+' :: _) = _
            rw [parsePre_none_plus]
            simp [postStr, devStr, locStr]
        | none => exact parsePre_none_nil

theorem parsePost_full (post dev : Option (Str × Nat))
    (loc : Option (List (Sum Nat Str)))
    (hpost : ∀ t n, post = some (t, n) → t = "post".data) :
    parsePost (postStr post ++ (devStr dev ++ locStr loc))
      = (post, devStr dev ++ locStr loc) := by
  have hD := headDig_tail2 dev loc
  cases post with
  | some p =>
    obtain ⟨t, n⟩ := p
    have ht := hpost t n rfl
    subst ht
    show parsePost (('.' :: 'p' :: 'o' :: 's' :: 't' :: natToDigits n) ++ _) = _
    simp only [List.cons_append]
    rw [parsePost_some n _ hD]
  | none =>
    show parsePost (devStr dev ++ locStr loc) = _
    cases dev with
    | some p =>
      obtain ⟨t, n⟩ := p
      show parsePost (('.' :: 'd' :: 'e' :: 'v' :: natToDigits n) ++ _) = _
      simp only [List.cons_append]
      rw [parsePost_none_dev]
      simp [devStr, List.cons_append]
    | none =>
      show parsePost (locStr loc) = _
      cases loc with
      | some l =>
        cases l with
        | nil => exact parsePost_none_nil
        | cons s ss =>
          show parsePost ('+' :: _) = _
          rw [parsePost_none_plus]
          simp [devStr, locStr]
      | none => exact parsePost_none_nil

theorem parseDev_full (dev : Option (Str × Nat))
    (loc : Option (List (Sum Nat Str)))
    (hdev : ∀ t n, dev = some (t, n) → t = "dev".data) :
    parseDev (devStr dev ++ locStr loc) = (dev, locStr loc) := by
  have hL := headDig_locStr loc
  cases dev with
  | some p =>
    obtain ⟨t, n⟩ := p
    have ht := hdev t n rfl
    subst ht
    show parseDev (('.' :: 'd' :: 'e' :: 'v' :: natToDigits n) ++ _) = _
    simp only [List.cons_append]
    rw [parseDev_some n _ hL]
  | none =>
    show parseDev (locStr loc) = _
    cases loc with
    | some l =>
      cases l with
      | nil => exact parseDev_none_nil
      | cons s ss =>
        show parseDev ('+' :: _) = _
        rw [parseDev_none_plus]
        simp [locStr]
    | none => exact parseDev_none_nil

/-!
## Assembling the canonical-string roundtrip
-/

theorem stripLeadingV_of_digit (cs : Str) (h : headDig cs = true) :
    stripLeadingV cs = cs := by
  cases cs with
  | nil => rfl
  | cons c r =>
    simp only [headDig] at h
    have hcv : c ≠ 'v' := by intro hc; rw [hc] at h; revert h; decide
    unfold stripLeadingV
    split
    · rename_i rest heq
      injection heq with h1 _
      exact absurd h1 hcv
    · rfl

theorem headDig_verToString (v : PyVersion) (hrel : v.release ≠ []) :
    headDig (verToString v) = true := by
  unfold verToString epochStr
  by_cases he : v.epoch ≠ 0
  · rw [if_pos he]
    obtain ⟨d, ds, hnd⟩ : ∃ d ds, natToDigits v.epoch = d :: ds := by
      cases hx : natToDigits v.epoch with
      | nil => exact absurd hx (natToDigits_ne_nil _)
      | cons d ds => exact ⟨d, ds, rfl⟩
    rw [hnd]
    simp only [List.cons_append, List.append_assoc]
    show isDig d = true
    exact natToDigits_all_digits _ d (by rw [hnd]; simp)
  · rw [if_neg he]
    cases hr : v.release with
    | nil => exact absurd hr hrel
    | cons r rs =>
      unfold releaseStr
      rw [List.map_cons, joinDots_cons]
      obtain ⟨d, ds, hnd⟩ : ∃ d ds, natToDigits r = d :: ds := by
        cases hx : natToDigits r with
        | nil => exact absurd hx (natToDigits_ne_nil _)
        | cons d ds => exact ⟨d, ds, rfl⟩
      rw [hnd]
      simp only [List.cons_append, List.append_assoc, List.nil_append]
      show isDig d = true
      exact natToDigits_all_digits _ d (by rw [hnd]; simp)

theorem restFacts (v : PyVersion) (h : Wf v) :
    headDig (preStr v.pre ++ (postStr v.post ++ (devStr v.dev
        ++ locStr v.locSegs))) = false ∧
    (∀ r, preStr v.pre ++ (postStr v.post ++ (devStr v.dev
        ++ locStr v.locSegs)) = '.' :: r → headDig r = false) ∧
    (∀ r, preStr v.pre ++ (postStr v.post ++ (devStr v.dev
        ++ locStr v.locSegs)) ≠ '!' :: r) := by
  cases hp : v.pre with
  | some p =>
    obtain ⟨t, n⟩ := p
    rcases h.preTag t n hp with ht | ht | ht <;> subst ht <;>
      simp only [preStr, List.cons_append, List.nil_append, List.append_assoc] <;>
      refine ⟨rfl, ?_, ?_⟩ <;> intro r hr <;> simp at hr
  | none =>
    simp only [preStr, List.nil_append]
    cases hpo : v.post with
    | some p =>
      obtain ⟨t, n⟩ := p
      simp only [postStr, List.cons_append, List.append_assoc]
      refine ⟨rfl, ?_, ?_⟩
      · intro r hr
        obtain ⟨_, h2⟩ := List.cons.inj hr
        rw [← h2]
        rfl
      · intro r hr
        simp at hr
    | none =>
      cases hd : v.dev with
      | some p =>
        obtain ⟨t, n⟩ := p
        simp only [postStr, devStr, List.cons_append, List.append_assoc,
          List.nil_append]
        refine ⟨rfl, ?_, ?_⟩
        · intro r hr
          obtain ⟨_, h2⟩ := List.cons.inj hr
          rw [← h2]
          rfl
        · intro r hr
          simp at hr
      | none =>
        cases hl : v.locSegs with
        | some l =>
          cases l with
          | nil => exact absurd rfl (h.locWf [] hl).1
          | cons s ss =>
            simp only [postStr, devStr, locStr, List.nil_append]
            refine ⟨rfl, ?_, ?_⟩ <;> intro r hr <;> simp at hr
        | none =>
          simp only [postStr, devStr, locStr, List.nil_append]
          exact ⟨rfl, fun r hr => by simp at hr, fun r hr => by simp at hr⟩

theorem parseAll_canonical (v : PyVersion) (h : Wf v) :
    parseAll (verToString v) = some v := by
  obtain ⟨hR1, hR2, hR3⟩ := restFacts v h
  have hassoc : verToString v = epochStr v.epoch ++ (releaseStr v.release
      ++ (preStr v.pre ++ (postStr v.post ++ (devStr v.dev
        ++ locStr v.locSegs)))) := by
    unfold verToString
    simp only [List.append_assoc]
  have hstrip : stripLeadingV (verToString v) = verToString v :=
    stripLeadingV_of_digit _ (headDig_verToString v h.relNonempty)
  have hep : parseEpoch (verToString v) = (v.epoch, releaseStr v.release
      ++ (preStr v.pre ++ (postStr v.post ++ (devStr v.dev
        ++ locStr v.locSegs)))) := by
    by_cases he : v.epoch ≠ 0
    · rw [hassoc]
      unfold epochStr
      rw [if_pos he, List.append_assoc]
      exact parseEpoch_digits v.epoch _
    · rw [hassoc]
      unfold epochStr
      rw [if_neg he, List.nil_append]
      push_neg at he
      rw [he]
      apply parseEpoch_of_snd_not_bang
      cases hr : v.release with
      | nil => exact absurd hr h.relNonempty
      | cons r rs =>
        unfold releaseStr
        rw [List.map_cons, joinDots_cons, List.append_assoc,
          takeDigits_append _ _ (natToDigits_all_digits r)
            (headDig_dotTail_nats rs _ hR1)]
        intro q hq
        cases hrs : rs with
        | nil =>
          rw [hrs] at hq
          simp only [List.map_nil] at hq
          rw [show dotTail ([] : List Str) = [] from rfl, List.nil_append] at hq
          exact hR3 q hq
        | cons m ms =>
          rw [hrs] at hq
          rw [List.map_cons, dotTail_cons] at hq
          simp at hq
  have hrelstep : parseRelease (releaseStr v.release ++ (preStr v.pre
      ++ (postStr v.post ++ (devStr v.dev ++ locStr v.locSegs))))
      = some (v.release, preStr v.pre ++ (postStr v.post ++ (devStr v.dev
        ++ locStr v.locSegs))) :=
    parseRelease_roundtrip _ _ h.relNonempty hR1 hR2
  have hprestep := parsePre_full v.pre v.post v.dev v.locSegs h.preTag
  have hpoststep := parsePost_full v.post v.dev v.locSegs h.postTag
  have hdevstep := parseDev_full v.dev v.locSegs h.devTag
  have hlocstep := parseLocal_roundtrip v.locSegs h.locWf
  unfold parseAll
  simp only [hstrip, hep, hrelstep, hprestep, hpoststep, hdevstep, hlocstep,
    if_true]

/-!
## Canonical renderings survive stripping and lowercasing
-/

theorem canonChar_val (c : Char) (h : canonChar c = true) :
    33 ≤ c.toNat ∧ (c.toNat ≤ 57 ∨ (97 ≤ c.toNat ∧ c.toNat ≤ 122)) := by
  unfold canonChar isDig isLowerAlpha at h
  simp only [Bool.or_eq_true, Bool.and_eq_true, decide_eq_true_eq,
    beq_iff_eq] at h
  rcases h with (((⟨h1, h2⟩ | ⟨h1, h2⟩) | hc) | hc) | hc
  · omega
  · omega
  · rw [hc]; decide
  · rw [hc]; decide
  · rw [hc]; decide

theorem pyLower_canon (c : Char) (h : canonChar c = true) : pyLower c = c := by
  obtain ⟨h1, h2⟩ := canonChar_val c h
  unfold pyLower
  rw [if_neg (by omega)]

theorem isWsB_canon (c : Char) (h : canonChar c = true) : isWsB c = false := by
  obtain ⟨h1, _⟩ := canonChar_val c h
  unfold isWsB
  simp only [Bool.or_eq_false_iff, beq_eq_false_iff_ne]
  refine ⟨⟨⟨⟨⟨?_, ?_⟩, ?_⟩, ?_⟩, ?_⟩, ?_⟩ <;>
    intro hc <;> rw [hc] at h1 <;> revert h1 <;> decide

theorem pyStrip_canon (cs : Str) (h : ∀ c ∈ cs, canonChar c = true) :
    pyStrip cs = cs := by
  have hws : ∀ c ∈ cs, isWsB c = false := fun c hc => isWsB_canon c (h c hc)
  have hdrop : ∀ l : Str, (∀ c ∈ l, isWsB c = false) → l.dropWhile isWsB = l := by
    intro l hl
    cases l with
    | nil => rfl
    | cons a l' => simp [List.dropWhile_cons, hl a (by simp)]
  unfold pyStrip
  rw [hdrop cs hws, hdrop cs.reverse (fun c hc => hws c (List.mem_reverse.mp hc)),
    List.reverse_reverse]

theorem mapLower_canon (cs : Str) (h : ∀ c ∈ cs, canonChar c = true) :
    cs.map pyLower = cs := by
  induction cs with
  | nil => rfl
  | cons a l ih =>
    rw [List.map_cons, pyLower_canon a (h a (by simp)),
      ih (fun c hc => h c (by simp [hc]))]

theorem canon_natToDigits (n : Nat) : ∀ c ∈ natToDigits n, canonChar c = true := by
  intro c hc
  have hd := natToDigits_all_digits n c hc
  simp [canonChar, hd]

theorem mem_dotTail (c : Char) (l : List Str) (hc : c ∈ dotTail l) :
    c = '.' ∨ ∃ s ∈ l, c ∈ s := by
  unfold dotTail at hc
  rw [List.mem_flatten] at hc
  obtain ⟨x, hx, hcx⟩ := hc
  rw [List.mem_map] at hx
  obtain ⟨s, hs, hsx⟩ := hx
  rw [← hsx] at hcx
  rcases List.mem_cons.mp hcx with h | h
  · exact Or.inl h
  · exact Or.inr ⟨s, hs, h⟩

theorem canon_joinDots (l : List Str) (h : ∀ s ∈ l, ∀ c ∈ s, canonChar c = true) :
    ∀ c ∈ joinDots l, canonChar c = true := by
  intro c hc
  cases l with
  | nil => simp [joinDots] at hc
  | cons s ss =>
    rw [joinDots_cons] at hc
    rcases List.mem_append.mp hc with h1 | h1
    · exact h s (by simp) c h1
    · rcases mem_dotTail c ss h1 with h2 | ⟨t, ht, h2⟩
      · rw [h2]; decide
      · exact h t (by simp [ht]) c h2

theorem canon_verToString (v : PyVersion) (h : Wf v) :
    ∀ c ∈ verToString v, canonChar c = true := by
  intro c hc
  unfold verToString at hc
  simp only [List.mem_append] at hc
  rcases hc with ((((hc | hc) | hc) | hc) | hc) | hc
  · unfold epochStr at hc
    by_cases he : v.epoch ≠ 0
    · rw [if_pos he] at hc
      rcases List.mem_append.mp hc with h1 | h1
      · exact canon_natToDigits _ c h1
      · simp at h1; rw [h1]; decide
    · rw [if_neg he] at hc; simp at hc
  · exact canon_joinDots _ (by
      intro s hs c' hc'
      rw [List.mem_map] at hs
      obtain ⟨n, _, hn⟩ := hs
      rw [← hn] at hc'
      exact canon_natToDigits n c' hc') c hc
  · unfold preStr at hc
    cases hp : v.pre with
    | none => rw [hp] at hc; simp at hc
    | some p =>
      obtain ⟨t, n⟩ := p
      rw [hp] at hc
      rcases List.mem_append.mp hc with h1 | h1
      · rcases h.preTag t n hp with ht | ht | ht <;> rw [ht] at h1 <;>
          simp at h1 <;> first
          | (rw [h1]; decide)
          | (rcases h1 with h1 | h1 <;> rw [h1] <;> decide)
      · exact canon_natToDigits n c h1
  · unfold postStr at hc
    cases hp : v.post with
    | none => rw [hp] at hc; simp at hc
    | some p =>
      obtain ⟨t, n⟩ := p
      rw [hp] at hc
      rcases List.mem_cons.mp hc with h1 | h1
      · rw [h1]; decide
      · rcases List.mem_cons.mp h1 with h2 | h2
        · rw [h2]; decide
        · rcases List.mem_cons.mp h2 with h3 | h3
          · rw [h3]; decide
          · rcases List.mem_cons.mp h3 with h4 | h4
            · rw [h4]; decide
            · rcases List.mem_cons.mp h4 with h5 | h5
              · rw [h5]; decide
              · exact canon_natToDigits n c h5
  · unfold devStr at hc
    cases hp : v.dev with
    | none => rw [hp] at hc; simp at hc
    | some p =>
      obtain ⟨t, n⟩ := p
      rw [hp] at hc
      rcases List.mem_cons.mp hc with h1 | h1
      · rw [h1]; decide
      · rcases List.mem_cons.mp h1 with h2 | h2
        · rw [h2]; decide
        · rcases List.mem_cons.mp h2 with h3 | h3
          · rw [h3]; decide
          · rcases List.mem_cons.mp h3 with h4 | h4
            · rw [h4]; decide
            · exact canon_natToDigits n c h4
  · unfold locStr at hc
    cases hl : v.locSegs with
    | none => rw [hl] at hc; simp at hc
    | some l =>
      cases l with
      | nil => rw [hl] at hc; simp at hc
      | cons s ss =>
        rw [hl] at hc
        rcases List.mem_cons.mp hc with h1 | h1
        · rw [h1]; decide
        · refine canon_joinDots _ ?_ c h1
          intro t ht c' hc'
          rw [List.mem_map] at ht
          obtain ⟨seg, hseg, hsegt⟩ := ht
          rw [← hsegt] at hc'
          cases seg with
          | inl n => exact canon_natToDigits n c' hc'
          | inr str =>
            have hwf := (h.locWf (s :: ss) hl).2 (Sum.inr str) hseg
            obtain ⟨_, haln, _⟩ := hwf
            have := haln c' hc'
            unfold isAlnum at this
            simp only [Bool.or_eq_true] at this
            unfold canonChar
            rcases this with h2 | h2 <;> simp [h2]

/-- The `Version` constructor applied to a canonical rendering of a
well-formed parsed version reproduces that version exactly. -/
theorem Version_verToString (v : PyVersion) (h : Wf v) :
    Version (verToString v) = some v := by
  unfold Version
  rw [pyStrip_canon _ (canon_verToString v h),
    mapLower_canon _ (canon_verToString v h)]
  exact parseAll_canonical v h

/-!
## Soundness: every parsed version is well-formed
-/

theorem matchFirstTag_mem : ∀ (tags : List Str) (cs t rest : Str),
    matchFirstTag tags cs = some (t, rest) → t ∈ tags := by
  intro tags
  induction tags with
  | nil => intro cs t rest h; simp [matchFirstTag] at h
  | cons tg tgs ih =>
    intro cs t rest h
    unfold matchFirstTag at h
    revert h
    cases hs : stripTag tg cs with
    | some r =>
      intro h
      injection h with h1
      obtain ⟨h2, _⟩ := Prod.mk.inj h1
      rw [← h2]
      simp
    | none =>
      intro h
      exact List.mem_cons_of_mem tg (ih cs t rest h)

theorem norm_preTags : ∀ t ∈ preTags, normalizeTag t = "a".data ∨
    normalizeTag t = "b".data ∨ normalizeTag t = "rc".data := by decide

theorem norm_postTags : ∀ t ∈ postTags, normalizeTag t = "post".data := by decide

theorem norm_devTags : ∀ t ∈ devTags, normalizeTag t = "dev".data := by decide

theorem parsePre_sound (cs : Str) (t : Str) (n : Nat) (r : Str)
    (h : parsePre cs = (some (t, n), r)) :
    t = "a".data ∨ t = "b".data ∨ t = "rc".data := by
  unfold parsePre at h
  revert h
  cases hm : matchFirstTag preTags (consumeOptSep cs) with
  | none => intro h; injection h with h1 _; exact absurd h1.symm (by simp)
  | some p =>
    obtain ⟨t₀, rest⟩ := p
    intro h
    injection h with h1 _
    injection h1 with h2
    obtain ⟨h3, _⟩ := Prod.mk.inj h2
    rw [← h3]
    exact norm_preTags t₀ (matchFirstTag_mem preTags _ t₀ rest hm)

theorem parsePost_sound (cs : Str) (t : Str) (n : Nat) (r : Str)
    (h : parsePost cs = (some (t, n), r)) : t = "post".data := by
  unfold parsePost at h
  revert h
  cases hm : matchFirstTag postTags (consumeOptSep cs) with
  | none =>
    intro h
    dsimp only at h
    split at h
    · rename_i rest
      revert h
      cases ht : takeDigits rest with
      | mk fst snd =>
        cases fst with
        | nil =>
          intro h
          injection h with h1 _
          exact absurd h1.symm (by simp)
        | cons d ds =>
          intro h
          injection h with h1 _
          injection h1 with h2
          exact (Prod.mk.inj h2).1.symm
    · injection h with h1 _
      exact absurd h1.symm (by simp)
  | some p =>
    obtain ⟨t₀, rest₀⟩ := p
    intro h
    dsimp only at h
    split at h
    · rename_i rest
      revert h
      cases ht : takeDigits rest with
      | mk fst snd =>
        cases fst with
        | nil =>
          intro h
          injection h with h1 _
          injection h1 with h2
          rw [← (Prod.mk.inj h2).1]
          exact norm_postTags t₀ (matchFirstTag_mem postTags _ t₀ rest₀ hm)
        | cons d ds =>
          intro h
          injection h with h1 _
          injection h1 with h2
          exact (Prod.mk.inj h2).1.symm
    · injection h with h1 _
      injection h1 with h2
      rw [← (Prod.mk.inj h2).1]
      exact norm_postTags t₀ (matchFirstTag_mem postTags _ t₀ rest₀ hm)

theorem parseDev_sound (cs : Str) (t : Str) (n : Nat) (r : Str)
    (h : parseDev cs = (some (t, n), r)) : t = "dev".data := by
  unfold parseDev at h
  revert h
  cases hm : matchFirstTag devTags (consumeOptSep cs) with
  | none => intro h; injection h with h1 _; exact absurd h1.symm (by simp)
  | some p =>
    obtain ⟨t₀, rest⟩ := p
    intro h
    injection h with h1 _
    injection h1 with h2
    obtain ⟨h3, _⟩ := Prod.mk.inj h2
    rw [← h3]
    exact norm_devTags t₀ (matchFirstTag_mem devTags _ t₀ rest hm)

theorem parseRelease_sound (cs : Str) (rel : List Nat) (r : Str)
    (h : parseRelease cs = some (rel, r)) : rel ≠ [] := by
  unfold parseRelease at h
  revert h
  cases ht : takeDigits cs with
  | mk fst snd =>
    cases fst with
    | nil => intro h; exact absurd h (by simp)
    | cons d ds =>
      intro h
      injection h with h1
      obtain ⟨h2, _⟩ := Prod.mk.inj h1
      rw [← h2]
      simp

theorem mkSeg_wf (s : Str) (hne : s ≠ []) (haln : ∀ c ∈ s, isAlnum c = true) :
    WfSeg (mkSeg s) := by
  unfold mkSeg
  by_cases hd : s.all isDig = true
  · rw [if_pos hd]; trivial
  · rw [if_neg hd]; exact ⟨hne, haln, hd⟩

theorem parseLocTailF_sound : ∀ (fuel : Nat) (cs : Str),
    ∀ s ∈ (parseLocTailF fuel cs).1, WfSeg s := by
  intro fuel
  induction fuel with
  | zero => intro cs s hs; simp [parseLocTailF] at hs
  | succ f ih =>
    intro cs s hs
    revert hs
    unfold parseLocTailF
    split
    · rename_i c rest
      by_cases hsep : isSepB c
      · simp only [hsep, if_true]
        cases hta : takeAlnum rest with
        | mk fst snd =>
          cases fst with
          | nil => intro hs; simp at hs
          | cons a as =>
            intro hs
            rcases List.mem_cons.mp hs with h1 | h1
            · rw [h1]
              apply mkSeg_wf _ (by simp)
              intro c' hc'
              have := takeAlnum_all rest c'
              rw [hta] at this
              exact this hc'
            · exact ih _ s h1
      · simp only [hsep, Bool.false_eq_true, if_false]
        intro hs
        simp at hs
    · intro hs
      simp at hs

theorem parseLocal_sound (cs : Str) (l : List (Sum Nat Str)) (r : Str)
    (h : parseLocal cs = some (some l, r)) :
    l ≠ [] ∧ ∀ s ∈ l, WfSeg s := by
  revert h
  unfold parseLocal
  split
  · rename_i rest
    cases hta : takeAlnum rest with
    | mk fst snd =>
      cases fst with
      | nil => intro h; simp at h
      | cons a as =>
        intro h
        injection h with h1
        obtain ⟨h2, _⟩ := Prod.mk.inj h1
        injection h2 with h3
        rw [← h3]
        constructor
        · simp
        · intro s hs
          rcases List.mem_cons.mp hs with h4 | h4
          · rw [h4]
            apply mkSeg_wf _ (by simp)
            intro c' hc'
            have := takeAlnum_all rest c'
            rw [hta] at this
            exact this hc'
          · exact parseLocTailF_sound _ _ s h4
  · intro h
    injection h with h1
    obtain ⟨h2, _⟩ := Prod.mk.inj h1
    exact absurd h2.symm (by simp)

theorem parseAll_wf (cs : Str) (v : PyVersion) (h : parseAll cs = some v) :
    Wf v := by
  unfold parseAll at h
  revert h
  cases hep : parseEpoch (stripLeadingV cs) with
  | mk epoch cs₁ =>
    cases hrel : parseRelease cs₁ with
    | none =>
      intro h
      simp only [hep, hrel] at h
      simp at h
    | some p =>
      obtain ⟨release, cs₂⟩ := p
      cases hpre : parsePre cs₂ with
      | mk pre cs₃ =>
        cases hpost : parsePost cs₃ with
        | mk post cs₄ =>
          cases hdev : parseDev cs₄ with
          | mk dev cs₅ =>
            cases hloc : parseLocal cs₅ with
            | none =>
              intro h
              simp only [hep, hrel, hpre, hpost, hdev, hloc] at h
              simp at h
            | some q =>
              obtain ⟨locSegs, cs₆⟩ := q
              intro h
              simp only [hep, hrel, hpre, hpost, hdev, hloc] at h
              by_cases hend : cs₆ = []
              · rw [if_pos hend] at h
                injection h with h1
                rw [← h1]
                exact {
                  relNonempty := parseRelease_sound cs₁ release cs₂ hrel
                  preTag := fun t n ht => parsePre_sound cs₂ t n cs₃
                    (by rw [hpre, show pre = some (t, n) from ht])
                  postTag := fun t n ht => parsePost_sound cs₃ t n cs₄
                    (by rw [hpost, show post = some (t, n) from ht])
                  devTag := fun t n ht => parseDev_sound cs₄ t n cs₅
                    (by rw [hdev, show dev = some (t, n) from ht])
                  locWf := fun l hl => parseLocal_sound cs₅ l cs₆
                    (by rw [hloc, show locSegs = some l from hl]) }
              · rw [if_neg hend] at h
                exact absurd h (by simp)

/-- Every successfully parsed version satisfies the parser invariant. -/
theorem Version_wf (s : Str) (v : PyVersion) (h : Version s = some v) : Wf v :=
  parseAll_wf _ v h

/--
C2: For every version string `s` that parses successfully, rendering the
parsed result to its canonical string (`Version.__str__`) and parsing that
string again yields a version whose `ComparisonKey` equals that of
`parse(s)` (indeed the identical parsed structure).  The rendering
`verToString` takes only the parsed structure as input, so the canonical
form is independent of the original spelling and separators.
-/
theorem C2_canonical_roundtrip (s : Str) (v : PyVersion)
    (h : parseVer s = some v) :
    ∃ w : PyVersion, parseVer (verToString v) = some w ∧ vKey w = vKey v :=
  ⟨v, Version_verToString v (Version_wf s v h), rfl⟩

/-- C2 witness: the theorem applied to the concrete input `"1.0.0-1"`. -/
theorem C2_canonical_roundtrip_witness :
    ∃ w : PyVersion,
      parseVer (verToString ⟨0, [1, 0, 0], none, some ("post".data, 1), none, none⟩)
        = some w ∧
      vKey w = vKey ⟨0, [1, 0, 0], none, some ("post".data, 1), none, none⟩ :=
  C2_canonical_roundtrip "1.0.0-1".data
    ⟨0, [1, 0, 0], none, some ("post".data, 1), none, none⟩ (by decide)

/-!
## Dispatch-registry theorems (C5–C10)
-/

theorem register_impl (w : World) (gv : Resolver) (st : Registry) (t : Str)
    (f : Nat) (st' : Registry) (r : Nat)
    (h : register w gv st t f = .ok (st', r)) :
    st'.impl = if textMatches w gv t then f else st.impl := by
  unfold register at h
  unfold textMatches
  cases hval : validateClauses w (splitClauses t) with
  | error e =>
    rw [hval] at h
    simp at h
  | ok pvs =>
    rw [hval] at h
    dsimp only at h
    simp only [hval]
    by_cases hfl : st.flagged.contains f = true
    · rw [if_pos hfl] at h
      simp at h
    · rw [if_neg hfl] at h
      by_cases hmt : _matches_all_versions gv pvs = some true
      · rw [if_pos (by simp [hmt])]
        rw [hmt] at h
        dsimp only at h
        injection h with h1
        obtain ⟨h2, _⟩ := Prod.mk.inj h1
        rw [← h2]
      · rw [if_neg (by simp [hmt])]
        cases hm : _matches_all_versions gv pvs with
        | none =>
          rw [hm] at h
          simp at h
        | some b =>
          cases b with
          | true => exact absurd hm hmt
          | false =>
            rw [hm] at h
            dsimp only at h
            injection h with h1
            obtain ⟨h2, _⟩ := Prod.mk.inj h1
            rw [← h2]

theorem registerMany_impl (w : World) (gv : Resolver) :
    ∀ (L : List (Str × Nat)) (st st' : Registry),
      registerMany w gv st L = .ok st' →
      st'.impl = specActive w gv st.impl L := by
  intro L
  induction L with
  | nil =>
    intro st st' h
    injection h with h1
    rw [← h1]
    rfl
  | cons tf rest ih =>
    intro st st' h
    obtain ⟨t, f⟩ := tf
    unfold registerMany at h
    revert h
    cases hreg : register w gv st t f with
    | error e => intro h; simp at h
    | ok p =>
      obtain ⟨st₁, r⟩ := p
      intro h
      rw [ih st₁ st' h, register_impl w gv st t f st₁ r hreg]
      unfold specActive
      rw [List.foldl_cons]

/--
C5: Each registration's predicate set is evaluated at registration time —
`register` computes the match as it runs and `call` is a mere projection of
the stored active pointer, taking no resolver — and after any sequence of
successful registrations, the dispatch point invokes the implementation of
the most recently registered matching predicate set (later matching
registrations supersede earlier ones), the default when none matched.
-/
theorem C5_last_match_wins (w : World) (gv : Resolver) (st : Registry)
    (L : List (Str × Nat)) (st' : Registry)
    (h : registerMany w gv st L = .ok st') :
    call st' = specActive w gv st.impl L :=
  registerMany_impl w gv L st st' h

/-- C5 witness: two registrations whose predicates both match; the second
one's implementation is active. -/
theorem C5_last_match_wins_witness :
    call ⟨0, 2, "0.9".data,
        [("rich<1.0".data, 1), ("rich<=0.9".data, 2)], [1, 0]⟩
      = specActive ⟨fun p => if p = "rich".data then some "0.5".data else none,
          "3.11.0".data⟩
        (get_version ⟨fun p => if p = "rich".data then some "0.5".data else none,
          "3.11.0".data⟩)
        0 [("rich<1.0".data, 1), ("rich<=0.9".data, 2)] :=
  C5_last_match_wins
    ⟨fun p => if p = "rich".data then some "0.5".data else none, "3.11.0".data⟩
    (get_version ⟨fun p => if p = "rich".data then some "0.5".data else none,
      "3.11.0".data⟩)
    (mkDispatch 0)
    [("rich<1.0".data, 1), ("rich<=0.9".data, 2)]
    ⟨0, 2, "0.9".data, [("rich<1.0".data, 1), ("rich<=0.9".data, 2)], [1, 0]⟩
    rfl

/--
C6 (code bug): `reset()` does not always succeed and reproduce the
fresh-replay dispatch state.  `outer` sets `_is_versiondispatched` on the
current `_impl` at every registration, so once a matching registration is
followed by any further registration, the matched implementation is
flagged; replaying the log then raises the nesting `ValueError` inside
`reset`, which additionally has already cleared the registration log.
Concretely: default 0, register `"rich<1.0"` (matches under a pretended
rich 0.1), register `"rich>=1000"` (no match), then `reset()` raises.
-/
theorem C6_reset_code_bug :
    registerMany
        ⟨fun p => if p = "rich".data then some "2.0".data else none,
          "3.11.0".data⟩
        (pretendResolver
          ⟨fun p => if p = "rich".data then some "2.0".data else none,
            "3.11.0".data⟩
          [("rich".data, "0.1".data)])
        (mkDispatch 0)
        [("rich<1.0".data, 1), ("rich>=1000".data, 2)]
      = .ok ⟨0, 1, "1.0".data,
          [("rich<1.0".data, 1), ("rich>=1000".data, 2)], [1, 0]⟩ ∧
    reset
        ⟨fun p => if p = "rich".data then some "2.0".data else none,
          "3.11.0".data⟩
        (pretendResolver
          ⟨fun p => if p = "rich".data then some "2.0".data else none,
            "3.11.0".data⟩
          [("rich".data, "0.1".data)])
        ⟨0, 1, "1.0".data,
          [("rich<1.0".data, 1), ("rich>=1000".data, 2)], [1, 0]⟩
      = .error (.nesting, ⟨0, 0, [], [], [1, 0]⟩) :=
  ⟨rfl, rfl⟩

/--
C7 (code bug): the `pretend_version` context manager restores the previous
`get_version` only on normal exit; the generator has no `try/finally`, so
when the body raises, the line after `yield` never runs and the overriding
resolver stays installed after the scope exits.  Concretely, with rich
really installed at 2.0 and a pretended 0.1: after a raising body the
global resolver still reports 0.1 for rich; after a normal body it is
restored and reports 2.0 again.
-/
theorem C7_pretend_version_code_bug :
    ((pretendVersionRun
        ⟨fun p => if p = "rich".data then some "2.0".data else none,
          "3.11.0".data⟩
        (get_version ⟨fun p => if p = "rich".data then some "2.0".data else none,
          "3.11.0".data⟩)
        [("rich".data, "0.1".data)]
        (fun _ => (BodyOutcome.raised : BodyOutcome Unit))).1 "rich".data
      = Version "0.1".data) ∧
    ((get_version ⟨fun p => if p = "rich".data then some "2.0".data else none,
        "3.11.0".data⟩) "rich".data = Version "2.0".data) ∧
    Version "0.1".data ≠ Version "2.0".data ∧
    ((pretendVersionRun
        ⟨fun p => if p = "rich".data then some "2.0".data else none,
          "3.11.0".data⟩
        (get_version ⟨fun p => if p = "rich".data then some "2.0".data else none,
          "3.11.0".data⟩)
        [("rich".data, "0.1".data)]
        (fun _ => (BodyOutcome.ok () : BodyOutcome Unit))).1 "rich".data
      = Version "2.0".data) :=
  ⟨rfl, by decide, by decide, by decide⟩

/--
C8: the two failing-registration scenarios are atomic.  A predicate text
whose clause has no recognized operator token (e.g. `"pkg=1.0"`, single
`=`) raises the format `ValueError` from `_split_package_version` before
any side effect, and registering an implementation flagged as a dispatch
point's managed slot raises the nesting `ValueError`; in both cases the
error leaves the registry — log, active pointer, everything — exactly as
it was.
-/
theorem C8_atomic_failures (w : World) (gv : Resolver) (st : Registry)
    (fn fn' : Nat) (text : Str) (pvs : List (Str × Str × BinOp))
    (hval : validateClauses w (splitClauses text) = .ok pvs)
    (hfl : st.flagged.contains fn' = true) :
    register w gv st "pkg=1.0".data fn = .error (.noOperator, st) ∧
    register w gv st text fn' = .error (.nesting, st) := by
  constructor
  · rfl
  · unfold register
    rw [hval]
    dsimp only
    rw [if_pos hfl]

/-- C8 witness: a concrete registry with function 5 flagged. -/
theorem C8_atomic_failures_witness :
    register
        ⟨fun p => if p = "rich".data then some "2.0".data else none,
          "3.11.0".data⟩
        (get_version ⟨fun p => if p = "rich".data then some "2.0".data else none,
          "3.11.0".data⟩)
        ⟨0, 0, [], [], [5]⟩ "pkg=1.0".data 7
      = .error (.noOperator, ⟨0, 0, [], [], [5]⟩) ∧
    register
        ⟨fun p => if p = "rich".data then some "2.0".data else none,
          "3.11.0".data⟩
        (get_version ⟨fun p => if p = "rich".data then some "2.0".data else none,
          "3.11.0".data⟩)
        ⟨0, 0, [], [], [5]⟩ "rich==1.0".data 5
      = .error (.nesting, ⟨0, 0, [], [], [5]⟩) :=
  C8_atomic_failures
    ⟨fun p => if p = "rich".data then some "2.0".data else none, "3.11.0".data⟩
    (get_version ⟨fun p => if p = "rich".data then some "2.0".data else none,
      "3.11.0".data⟩)
    ⟨0, 0, [], [], [5]⟩ 7 5 "rich==1.0".data
    [("rich".data, "1.0".data, BinOp.eq)] rfl (by decide)

/--
C9 (modelled from the spec): a predicate whose subject resolves to a
non-parseable pseudo-version (e.g. the platform identifier `"win32"`,
rejected by the real version parser) may be registered with `==`, while
any ordering operator fails with `OperatorError` at registration time.
-/
theorem C9_pseudo_version_operators (v : Str) (op : BinOp)
    (hv : _is_valid_version v = false) :
    pseudoVersionOperatorCheck v BinOp.eq = .ok () ∧
    (op ≠ BinOp.eq →
      pseudoVersionOperatorCheck v op = .error .operatorError) ∧
    _is_valid_version "win32".data = false := by
  refine ⟨?_, ?_, by decide⟩
  · unfold pseudoVersionOperatorCheck
    simp [hv]
  · intro hop
    unfold pseudoVersionOperatorCheck
    simp [hv, hop]

/-- C9 witness: the pseudo-version `"win32"` with the ordering operator `<`. -/
theorem C9_pseudo_version_operators_witness :
    pseudoVersionOperatorCheck "win32".data BinOp.eq = .ok () ∧
    (BinOp.lt ≠ BinOp.eq →
      pseudoVersionOperatorCheck "win32".data BinOp.lt
        = .error .operatorError) ∧
    _is_valid_version "win32".data = false :=
  C9_pseudo_version_operators "win32".data BinOp.lt (by decide)

/--
C10: while a `pretend_version` override is in effect, the package-existence
check of `register` (`_is_valid_package`) still consults the real
environment's metadata — only `get_version` is overridden — so registering
a predicate whose subject appears only in the override dictionary, is not
installed, and is not the reserved subject `"python"`, fails with the
registration-time `ValueError` even though the override supplies a version
for it.
-/
theorem C10_validation_ignores_override (w : World) (dict : List (Str × Str))
    (st : Registry) (fn : Nat) (text clause subject target tv : Str)
    (op : BinOp)
    (hsplit : splitClauses text = [clause])
    (hc : _split_package_version clause = .ok (subject, target, op))
    (hpy : pyLowerStr subject ≠ "python".data)
    (hinst : w.installed subject = none)
    (hdict : lookupStr dict subject = some tv) :
    register w (pretendResolver w dict) st text fn
      = .error (.invalidSpec, st) := by
  have hvp : _is_valid_package w subject = false := by
    unfold _is_valid_package
    simp [hpy, hinst]
  have hvc : validateClauses w [clause] = .error .invalidSpec := by
    unfold validateClauses
    rw [hc]
    dsimp only
    rw [if_neg (by simp [hvp])]
  unfold register
  rw [hsplit, hvc]

/-- C10 witness: `"fakepkg"` exists only in the override dictionary. -/
theorem C10_validation_ignores_override_witness :
    register ⟨fun _ => none, "3.11.0".data⟩
        (pretendResolver ⟨fun _ => none, "3.11.0".data⟩
          [("fakepkg".data, "9.9".data)])
        (mkDispatch 0) "fakepkg==1.0".data 7
      = .error (.invalidSpec, mkDispatch 0) :=
  C10_validation_ignores_override ⟨fun _ => none, "3.11.0".data⟩
    [("fakepkg".data, "9.9".data)] (mkDispatch 0) 7
    "fakepkg==1.0".data "fakepkg==1.0".data "fakepkg".data "1.0".data
    "9.9".data BinOp.eq (by decide) rfl (by decide) rfl rfl
